import Mathlib

set_option maxHeartbeats 1600000

/-!
Verification development for the dqlite write-scheduling core.

The main object is a shallow embedding of the cooperative thread pool of
`src/lib/threadpool.c`: one planner thread moving work items from two producer
queues (ordered / unordered) to per-worker inboxes, N worker threads, and a
loop thread draining a completion queue.  The pool is modelled as a labelled
transition system `PStep` over `PoolState`; every state carries a ghost event
history `hist` recording the lifecycle events (submit, dispatch, start, finish,
after-work, barrier-consume) so that temporal ordering properties can be
stated.  The model is slightly finer-grained than the C code (the C planner
holds the pool mutex between its condition-variable waits, so several model
steps happen atomically in the implementation); every implementation trace is
a model trace, so all universally quantified safety/ordering theorems proved
here hold of the implementation, and all concrete counterexample traces used
below are realisable by the implementation (they only interleave at points
where the C code releases the mutex).

Also embedded: `pool_threads_init`'s thread-count computation, `id_generate`
from `src/metrics.c`, and (modelled from the spec, because `gateway.c` is not
among the provided sources) the gateway OPEN error path and ROWS serialisation.
-/

/-- Work classes of `enum pool_work_type` (threadpool.h): the comparisons in
threadpool.c (`type > WT_UNORD`, `type >= WT_ORD1`, `wtype > WT_BAR`) fix the
order `WT_UNORD < WT_BAR < WT_ORD1 < ...`; we embed them as naturals. -/
def WT_UNORD : Nat := 0

/-- Barrier work class. -/
def WT_BAR : Nat := 1

/-- First strictly-ordered work class; classes `ORD1, ORD2, ...` are the
naturals `≥ WT_ORD1`. -/
def WT_ORD1 : Nat := 2

/-- A pool work item (`pool_work_t`): ghost identity `wid` (the allocation),
work class `wtype`, the submission `cookie`, and the worker index
`thread_id = cookie % nthreads` assigned by `pool_queue_work`. -/
structure PoolWork where
  wid : Nat
  wtype : Nat
  cookie : Nat
  thread_id : Nat
deriving DecidableEq

/-- Planner states (`enum planner_states`). -/
inductive PS
  | NOTHING
  | DRAINING
  | BARRIER
  | DRAINING_UNORD
  | EXITED
deriving DecidableEq

/-- Lifecycle events of a work item, recorded in the ghost history:
`submit` (pool_queue_work/pool_work_submit), `dispatch` (planner pushes the
item to its worker's inbox), `start` (worker pops it and invokes the work
callback), `finish` (work callback returned, item pushed on the output queue
and `in_flight` adjusted), `after` (loop thread runs `queue_done`), `consume`
(planner pops a satisfied BAR from the ordered queue and frees it). -/
inductive PEv
  | submit (w : PoolWork)
  | dispatch (w : PoolWork)
  | start (w : PoolWork)
  | finish (w : PoolWork)
  | after (w : PoolWork)
  | consume (w : PoolWork)
deriving DecidableEq

/-- `listBefore x y l`: `x` occurs in `l` strictly before some occurrence
of `y`. -/
def listBefore {α : Type} (x y : α) : List α → Prop
  | [] => False
  | a :: l => (a = x ∧ y ∈ l) ∨ listBefore x y l

instance listBefore.instDecidable {α : Type} [DecidableEq α] (x y : α) :
    (l : List α) → Decidable (listBefore x y l)
  | [] => isFalse (fun h => h)
  | a :: l =>
    have : Decidable (listBefore x y l) := listBefore.instDecidable x y l
    inferInstanceAs (Decidable ((a = x ∧ y ∈ l) ∨ listBefore x y l))

/-- The submissions recorded in a history, in submission order. -/
def subsOf (h : List PEv) : List PoolWork :=
  h.filterMap fun e =>
    match e with
    | PEv.submit w => some w
    | _ => none

/-- The dispatches recorded in a history, in dispatch order. -/
def dispOf (h : List PEv) : List PoolWork :=
  h.filterMap fun e =>
    match e with
    | PEv.dispatch w => some w
    | _ => none

/-- The ordered-class (including BAR) submissions, in submission order: these
are exactly the items `pool_work_submit` pushes on the ordered queue. -/
def ordSubs (h : List PEv) : List PoolWork :=
  (subsOf h).filter fun w => decide (WT_UNORD < w.wtype)

/-- State of the pool (`struct pool_impl` plus ghost fields).  The per-worker
inboxes are represented by the single list `inqd` of all inbox contents in
dispatch order: worker `t`'s inbox is the subsequence of items with
`thread_id = t` (each inbox is FIFO; the planner appends at the tail, worker
`t` pops the first item with `thread_id = t`).  `runningl` is the bag of items
whose work callback is executing, `outq` the completion queue, `doneq` the
items whose after-work callback has run on the loop thread, `freed` the BAR
items popped and freed by the planner. -/
structure PoolState where
  nthreads : Nat
  hist : List PEv
  ordered : List PoolWork
  unordered : List PoolWork
  inqd : List PoolWork
  runningl : List PoolWork
  outq : List PoolWork
  doneq : List PoolWork
  freed : List PoolWork
  in_flight : Nat
  active_ws : Nat
  o_prev : Nat
  qos : Nat
  pstate : PS
  exiting : Bool

/-- Initial pool state after `pool_threads_init`: empty queues, planner in
NOTHING, `o_prev = WT_BAR`, `qos = 0`, `in_flight = 0`. -/
def initPool (n : Nat) : PoolState where
  nthreads := n
  hist := []
  ordered := []
  unordered := []
  inqd := []
  runningl := []
  outq := []
  doneq := []
  freed := []
  in_flight := 0
  active_ws := 0
  o_prev := WT_BAR
  qos := 0
  pstate := PS.NOTHING
  exiting := false

/-- `qos_pop` from threadpool.c: pop from `first` (ordered) or `second`
(unordered); if both are non-empty the old `qos` parity decides (odd takes
`first`) and `qos` is incremented.  Returns the popped item, the two updated
queues and the updated `qos`; `none` iff both queues are empty. -/
def qos_pop (qos : Nat) (first second : List PoolWork) :
    Option (PoolWork × List PoolWork × List PoolWork × Nat) :=
  match first, second with
  | [], [] => none
  | [], w :: us => some (w, [], us, qos)
  | w :: os, [] => some (w, os, [], qos)
  | w1 :: os, w2 :: us =>
    if qos % 2 = 1 then some (w1, os, w2 :: us, qos + 1)
    else some (w2, w1 :: os, us, qos + 1)

/-- One atomic transition of the pool.  Constructors mirror the code paths of
threadpool.c: `submit` is `pool_queue_work`/`pool_work_submit` (including
`w_register` and the ordered-class precondition `PRE(ERGO(...))`, which is a
guard because a violating call aborts the process); the `drain*`/`barrier*`/
`unord*`/`nothing*` constructors are the planner's cases; `workerStart` and
`workerFinish` are the worker loop (pop inbox head / push the finished item on
the output queue and decrement `in_flight` for strictly ordered items);
`loopDone` is `work_done`'s `queue_done` (one item, FIFO); `beginExit` is
`pool_cleanup` setting `exiting`. -/
inductive PStep (s : PoolState) : PoolState → Prop
  | submit (idn t c : Nat)
      (hfresh : idn ∉ (subsOf s.hist).map PoolWork.wid)
      (hpre : WT_UNORD < t → (s.o_prev ≠ WT_BAR ∧ t ≠ WT_BAR) → s.o_prev = t) :
      PStep s { s with
        hist := s.hist ++ [PEv.submit ⟨idn, t, c, c % s.nthreads⟩]
        ordered := if t = WT_UNORD then s.ordered
                   else s.ordered ++ [⟨idn, t, c, c % s.nthreads⟩]
        unordered := if t = WT_UNORD then s.unordered ++ [⟨idn, t, c, c % s.nthreads⟩]
                     else s.unordered
        o_prev := if WT_UNORD < t then t else s.o_prev
        active_ws := if t ≠ WT_BAR then s.active_ws + 1 else s.active_ws }
  | nothingToDraining
      (hps : s.pstate = PS.NOTHING) (hex : s.exiting = false)
      (hne : s.ordered ≠ [] ∨ s.unordered ≠ []) :
      PStep s { s with pstate := PS.DRAINING }
  | nothingToExited
      (hps : s.pstate = PS.NOTHING) (hex : s.exiting = true) :
      PStep s { s with pstate := PS.EXITED }
  | drainDispatch (w : PoolWork) (o' u' : List PoolWork) (q' : Nat)
      (hps : s.pstate = PS.DRAINING)
      (hnotbar : s.ordered.head?.map PoolWork.wtype ≠ some WT_BAR)
      (hpop : qos_pop s.qos s.ordered s.unordered = some (w, o', u', q')) :
      PStep s { s with
        hist := s.hist ++ [PEv.dispatch w]
        ordered := o'
        unordered := u'
        qos := q'
        inqd := s.inqd ++ [w]
        in_flight := if WT_ORD1 ≤ w.wtype then s.in_flight + 1 else s.in_flight }
  | drainToBarrier (w : PoolWork) (rest : List PoolWork)
      (hps : s.pstate = PS.DRAINING)
      (ho : s.ordered = w :: rest) (hbar : w.wtype = WT_BAR) :
      PStep s { s with pstate := PS.BARRIER }
  | drainToNothing
      (hps : s.pstate = PS.DRAINING)
      (ho : s.ordered = []) (hu : s.unordered = []) :
      PStep s { s with pstate := PS.NOTHING }
  | barrierToUnord
      (hps : s.pstate = PS.BARRIER) (hu : s.unordered ≠ []) :
      PStep s { s with pstate := PS.DRAINING_UNORD }
  | barrierConsume (w : PoolWork) (rest : List PoolWork)
      (hps : s.pstate = PS.BARRIER)
      (hu : s.unordered = []) (hif : s.in_flight = 0)
      (ho : s.ordered = w :: rest) (hbar : w.wtype = WT_BAR) :
      PStep s { s with
        hist := s.hist ++ [PEv.consume w]
        ordered := rest
        freed := s.freed ++ [w]
        pstate := PS.DRAINING }
  | unordDispatch (w : PoolWork) (rest : List PoolWork)
      (hps : s.pstate = PS.DRAINING_UNORD)
      (hu : s.unordered = w :: rest) :
      PStep s { s with
        hist := s.hist ++ [PEv.dispatch w]
        unordered := rest
        inqd := s.inqd ++ [w] }
  | unordToBarrier
      (hps : s.pstate = PS.DRAINING_UNORD) (hu : s.unordered = []) :
      PStep s { s with pstate := PS.BARRIER }
  | workerStart (w : PoolWork) (pre post : List PoolWork)
      (hq : s.inqd = pre ++ w :: post)
      (hpre : ∀ x ∈ pre, x.thread_id ≠ w.thread_id) :
      PStep s { s with
        hist := s.hist ++ [PEv.start w]
        inqd := pre ++ post
        runningl := s.runningl ++ [w] }
  | workerFinish (w : PoolWork) (pre post : List PoolWork)
      (hr : s.runningl = pre ++ w :: post) :
      PStep s { s with
        hist := s.hist ++ [PEv.finish w]
        runningl := pre ++ post
        outq := s.outq ++ [w]
        in_flight := if WT_BAR < w.wtype then s.in_flight - 1 else s.in_flight }
  | loopDone (w : PoolWork) (rest : List PoolWork)
      (ho : s.outq = w :: rest) :
      PStep s { s with
        hist := s.hist ++ [PEv.after w]
        outq := rest
        doneq := s.doneq ++ [w]
        active_ws := s.active_ws - 1 }
  | beginExit : PStep s { s with exiting := true }

/-- Reachable states of a pool with `n` worker threads. -/
inductive Reach (n : Nat) : PoolState → Prop
  | init : Reach n (initPool n)
  | step {s s' : PoolState} : Reach n s → PStep s s' → Reach n s'

/-- All live work items of a state, by location. -/
def places (s : PoolState) : List PoolWork :=
  s.ordered ++ (s.unordered ++ (s.inqd ++ (s.runningl ++ (s.outq ++ (s.doneq ++ s.freed)))))

/-- The inductive invariant of the pool model.  `perm`/`nodupIds`: every
submitted item lives in exactly one location; `typU`/`typO`: queue typing;
`noBar`/`freedBar`: BAR items never get past the planner; `iflt`: `in_flight`
counts the strictly ordered items dispatched whose work callback has not
finished; `aws`: `active_ws` counts the non-BAR items registered and not yet
completed; `osuf`: the ordered queue is a suffix of the ordered submission
sequence (FIFO); `inqSub`: the inbox contents are a subsequence of the
dispatch sequence; `h*`: correlation of history events with locations;
`dispOrd`/`c1a`/`c1u`/`c1d`/`c1b`/`c2o`: the temporal ordering facts. -/
structure PoolInv (s : PoolState) : Prop where
  perm : (places s).Perm (subsOf s.hist)
  nodupIds : ((subsOf s.hist).map PoolWork.wid).Nodup
  typU : ∀ w ∈ s.unordered, w.wtype = WT_UNORD
  typO : ∀ w ∈ s.ordered, WT_UNORD < w.wtype
  noBar : ∀ w, (w ∈ s.inqd ∨ w ∈ s.runningl ∨ w ∈ s.outq ∨ w ∈ s.doneq) → w.wtype ≠ WT_BAR
  freedBar : ∀ w ∈ s.freed, w.wtype = WT_BAR
  iflt : s.in_flight = (s.inqd ++ s.runningl).countP fun w => decide (WT_ORD1 ≤ w.wtype)
  aws : s.active_ws =
    (s.ordered ++ s.unordered ++ s.inqd ++ s.runningl ++ s.outq).countP
      fun w => decide (w.wtype ≠ WT_BAR)
  osuf : s.ordered.IsSuffix (ordSubs s.hist)
  inqSub : s.inqd.Sublist (dispOf s.hist)
  nodupDisp : (dispOf s.hist).Nodup
  tidEq : ∀ w ∈ subsOf s.hist, w.thread_id = w.cookie % s.nthreads
  hDisp : ∀ w, PEv.dispatch w ∈ s.hist ↔
    (w ∈ s.inqd ∨ w ∈ s.runningl ∨ w ∈ s.outq ∨ w ∈ s.doneq)
  hStart : ∀ w, PEv.start w ∈ s.hist ↔ (w ∈ s.runningl ∨ w ∈ s.outq ∨ w ∈ s.doneq)
  hFin : ∀ w, PEv.finish w ∈ s.hist ↔ (w ∈ s.outq ∨ w ∈ s.doneq)
  hAfter : ∀ w, PEv.after w ∈ s.hist ↔ w ∈ s.doneq
  hCons : ∀ w, PEv.consume w ∈ s.hist ↔ w ∈ s.freed
  dispOrd : ∀ w1 w2 : PoolWork, WT_ORD1 ≤ w1.wtype → WT_UNORD < w2.wtype →
    listBefore (PEv.submit w1) (PEv.submit w2) s.hist → PEv.dispatch w2 ∈ s.hist →
    listBefore (PEv.dispatch w1) (PEv.dispatch w2) s.hist
  c1a : ∀ B w1 : PoolWork, B.wtype = WT_BAR → WT_ORD1 ≤ w1.wtype →
    listBefore (PEv.submit w1) (PEv.submit B) s.hist → PEv.consume B ∈ s.hist →
    listBefore (PEv.finish w1) (PEv.consume B) s.hist
  c1u : ∀ B w1 : PoolWork, B.wtype = WT_BAR → w1.wtype = WT_UNORD →
    listBefore (PEv.submit w1) (PEv.submit B) s.hist → PEv.consume B ∈ s.hist →
    listBefore (PEv.dispatch w1) (PEv.consume B) s.hist
  c1d : ∀ B B0 : PoolWork, B.wtype = WT_BAR → B0.wtype = WT_BAR →
    listBefore (PEv.submit B0) (PEv.submit B) s.hist → PEv.consume B ∈ s.hist →
    listBefore (PEv.consume B0) (PEv.consume B) s.hist
  c1b : ∀ B w2 : PoolWork, B.wtype = WT_BAR → WT_UNORD < w2.wtype →
    listBefore (PEv.submit B) (PEv.submit w2) s.hist → PEv.start w2 ∈ s.hist →
    listBefore (PEv.consume B) (PEv.start w2) s.hist
  c2o : ∀ w1 w2 : PoolWork, WT_ORD1 ≤ w1.wtype → WT_ORD1 ≤ w2.wtype →
    w1.thread_id = w2.thread_id →
    listBefore (PEv.submit w1) (PEv.submit w2) s.hist → PEv.start w2 ∈ s.hist →
    listBefore (PEv.start w1) (PEv.start w2) s.hist

/-- Claim C1 as stated by the spec, instantiated to a pool with `n` workers:
every item (ordered or unordered) submitted before a BAR `B` completes (its
work callback finishes) before the planner consumes `B`; no item submitted
after `B` begins execution before `B` resolves; and the planner leaves BARRIER
for DRAINING only with `in_flight = 0` and an empty unordered queue. -/
def C1original (n : Nat) : Prop :=
  ∀ s, Reach n s → ∀ B : PoolWork, B.wtype = WT_BAR →
    (∀ w1, listBefore (PEv.submit w1) (PEv.submit B) s.hist →
      PEv.consume B ∈ s.hist → listBefore (PEv.finish w1) (PEv.consume B) s.hist) ∧
    (∀ w2, listBefore (PEv.submit B) (PEv.submit w2) s.hist →
      PEv.start w2 ∈ s.hist → listBefore (PEv.consume B) (PEv.start w2) s.hist) ∧
    (∀ s', s.pstate = PS.BARRIER → PStep s s' → s'.pstate = PS.DRAINING →
      s.in_flight = 0 ∧ s.unordered = [])

/-- Claim C2 as stated by the spec: work callbacks of ordered items of the
same class execute (begin) in submission order, and the assigned worker is
`cookie mod n`. -/
def C2original (n : Nat) : Prop :=
  ∀ s, Reach n s →
    (∀ w1 w2 : PoolWork, WT_ORD1 ≤ w1.wtype → w1.wtype = w2.wtype →
      listBefore (PEv.submit w1) (PEv.submit w2) s.hist → PEv.start w2 ∈ s.hist →
      listBefore (PEv.start w1) (PEv.start w2) s.hist) ∧
    (∀ w : PoolWork, PEv.submit w ∈ s.hist → w.thread_id = w.cookie % n)

/-- Claim C3 as stated by the spec: `in_flight = 0` whenever the planner is in
NOTHING. -/
def C3original (n : Nat) : Prop :=
  ∀ s, Reach n s → s.pstate = PS.NOTHING → s.in_flight = 0

/-- Default thread count (threadpool.c `enum`). -/
def POOL_THREADPOOL_SIZE : Nat := 4

/-- Maximum thread count (threadpool.c `enum`). -/
def MAX_THREADPOOL_SIZE : Nat := 1024

/-- The thread-count computation of `pool_threads_init`: start from the
default, override with `(uint32_t)atoi(val)` when the `POOL_THREADPOOL_SIZE`
environment variable is set (`env` is the `Int` returned by `atoi`; the
`uint32_t` cast reduces it modulo `2^32`), then map `0` to `1` and clamp to
`MAX_THREADPOOL_SIZE`. -/
def pool_threads_init_nthreads (env : Option Int) : Nat :=
  let n0 : Nat :=
    match env with
    | none => POOL_THREADPOOL_SIZE
    | some v => (v % (2 ^ 32 : Int)).toNat
  let n1 := if n0 = 0 then 1 else n0
  if n1 > MAX_THREADPOOL_SIZE then MAX_THREADPOOL_SIZE else n1

/-- `id_generate` from metrics.c: `__sync_add_and_fetch` on a static 64-bit
counter.  The atomic read-modify-write serialises concurrent calls, so the
generator is modelled as a sequential state transformer on the counter's
64-bit value, returning the incremented value (the cast to `uint64_t` makes
the 64-bit wrap explicit). -/
def id_generate (an_id : Nat) : Nat × Nat :=
  ((an_id + 1) % 2 ^ 64, (an_id + 1) % 2 ^ 64)

/-- Counter value after `k` calls to `id_generate` (the static starts at 0). -/
def id_state : Nat → Nat
  | 0 => 0
  | k + 1 => (id_generate (id_state k)).1

/-- Value returned by call number `k` (0-indexed) to `id_generate`. -/
def id_value (k : Nat) : Nat := (id_generate (id_state k)).2

/-- SQLite misuse result code. -/
def SQLITE_MISUSE : Nat := 21

/-- SQLite integer column type. -/
def SQLITE_INTEGER : Nat := 1

/-- SQLite open flag READWRITE (0x2, bit 1). -/
def SQLITE_OPEN_READWRITE : Nat := 2

/-- SQLite open flag CREATE (0x4, bit 2). -/
def SQLITE_OPEN_CREATE : Nat := 4

/-- A DB_ERROR response body: SQLite code, extended code, description. -/
structure DbError where
  code : Nat
  extended_code : Nat
  description : String
deriving DecidableEq

/-- Gateway responses involved in the claims under scrutiny. -/
inductive GatewayResponse
  | db (id : Nat)
  | dbError (e : DbError)
  | rows (body : List Nat)
deriving DecidableEq

/-- Modelled from the spec: the gateway's handling of an OPEN request against
the registered "volatile" VFS.  `src/gateway.c` is not among the provided
sources (only its test `test/test_gateway.c` is); per spec §4.6 and §8
(concrete scenarios 1-2), OPEN with flags READWRITE|CREATE yields a DB
response with the first registry id 0, while a flags value lacking READWRITE
(bit 1) is invalid and yields a DB_ERROR whose code and extended code are
SQLITE_MISUSE (21) with description "bad parameter or other API misuse"; in
both cases the handler itself succeeds, returning error code 0 alongside the
response. -/
def gateway_handle_open (flags : Nat) : Nat × GatewayResponse :=
  if flags.testBit 1 then
    (0, GatewayResponse.db 0)
  else
    (0, GatewayResponse.dbError
      ⟨SQLITE_MISUSE, SQLITE_MISUSE, "bad parameter or other API misuse"⟩)

/-- Modelled from the spec (§4.6 row streaming, §6 encoding): the row header
is one uint64 per row with 4-bit column-type nibbles packed little-endian,
first column in the lowest nibble. -/
def row_header : List Nat → Nat
  | [] => 0
  | t :: ts => t % 16 + 16 * row_header ts

/-- Little-endian byte list of a uint64. -/
def uint64_le_bytes (v : Nat) : List Nat :=
  (List.range 8).map fun i => v / 256 ^ i % 256

/-- Little-endian byte list of an int64 (two's complement). -/
def int64_le_bytes (v : Int) : List Nat :=
  uint64_le_bytes ((v % (2 ^ 64 : Int)).toNat)

/-- Decode a little-endian byte list as an unsigned integer. -/
def uint64_of_le_bytes (bs : List Nat) : Nat :=
  bs.foldr (fun b acc => b + 256 * acc) 0

/-- Decode a little-endian byte list as a two's-complement int64. -/
def int64_of_le_bytes (bs : List Nat) : Int :=
  let u := uint64_of_le_bytes bs
  if u < 2 ^ 63 then (u : Int) else (u : Int) - 2 ^ 64

/-- Modelled from the spec: the body of a ROWS response for integer-only
result rows — for each row, a header word of column-type nibbles (all
SQLITE_INTEGER here) followed by one 8-byte little-endian int64 per column.
`src/gateway.c` is not among the provided sources; this follows §4.6 "Row
streaming" and §8 concrete scenario 4. -/
def gateway_rows_body (rows : List (List Int)) : List Nat :=
  rows.foldr
    (fun r acc =>
      uint64_le_bytes (row_header (r.map fun _ => SQLITE_INTEGER)) ++
        (r.map int64_le_bytes).flatten ++ acc)
    []

/-- Concrete reachable state used for claim C1: with one worker, submit an
unordered item `u1 = ⟨0,0,0,0⟩` then a BAR `B = ⟨1,1,0,0⟩`; the planner moves
NOTHING → DRAINING → BARRIER → DRAINING_UNORD (dispatching `u1`) → BARRIER and
consumes `B` while `u1` still sits unexecuted in its worker's inbox. -/
def c1state : PoolState where
  nthreads := 1
  hist := [PEv.submit ⟨0, 0, 0, 0⟩, PEv.submit ⟨1, 1, 0, 0⟩,
    PEv.dispatch ⟨0, 0, 0, 0⟩, PEv.consume ⟨1, 1, 0, 0⟩]
  ordered := []
  unordered := []
  inqd := [⟨0, 0, 0, 0⟩]
  runningl := []
  outq := []
  doneq := []
  freed := [⟨1, 1, 0, 0⟩]
  in_flight := 0
  active_ws := 1
  o_prev := 1
  qos := 0
  pstate := PS.DRAINING
  exiting := false

/-- Concrete reachable state used for claim C2's counterexample: with two
workers, submit two ORD1 items with cookies 0 and 1 (so workers 0 and 1); the
planner dispatches both, and worker 1 starts the second item while the first
has not started. -/
def c2cexstate : PoolState where
  nthreads := 2
  hist := [PEv.submit ⟨0, 2, 0, 0⟩, PEv.submit ⟨1, 2, 1, 1⟩,
    PEv.dispatch ⟨0, 2, 0, 0⟩, PEv.dispatch ⟨1, 2, 1, 1⟩, PEv.start ⟨1, 2, 1, 1⟩]
  ordered := []
  unordered := []
  inqd := [⟨0, 2, 0, 0⟩]
  runningl := [⟨1, 2, 1, 1⟩]
  outq := []
  doneq := []
  freed := []
  in_flight := 2
  active_ws := 2
  o_prev := 2
  qos := 0
  pstate := PS.DRAINING
  exiting := false

/-- Concrete reachable state used for claim C2's witness: one worker, two ORD1
items with the same cookie; both are dispatched to worker 0 and start in
submission order. -/
def c2state : PoolState where
  nthreads := 1
  hist := [PEv.submit ⟨0, 2, 0, 0⟩, PEv.submit ⟨1, 2, 0, 0⟩,
    PEv.dispatch ⟨0, 2, 0, 0⟩, PEv.dispatch ⟨1, 2, 0, 0⟩,
    PEv.start ⟨0, 2, 0, 0⟩, PEv.start ⟨1, 2, 0, 0⟩]
  ordered := []
  unordered := []
  inqd := []
  runningl := [⟨0, 2, 0, 0⟩, ⟨1, 2, 0, 0⟩]
  outq := []
  doneq := []
  freed := []
  in_flight := 2
  active_ws := 2
  o_prev := 2
  qos := 0
  pstate := PS.DRAINING
  exiting := false

/-- Concrete reachable state used for claim C3: one worker, one ORD1 item;
the planner dispatches it and, with both queues empty, moves to NOTHING while
the item is still in the worker's inbox, so `in_flight = 1` in NOTHING. -/
def c3state : PoolState where
  nthreads := 1
  hist := [PEv.submit ⟨0, 2, 0, 0⟩, PEv.dispatch ⟨0, 2, 0, 0⟩]
  ordered := []
  unordered := []
  inqd := [⟨0, 2, 0, 0⟩]
  runningl := []
  outq := []
  doneq := []
  freed := []
  in_flight := 1
  active_ws := 1
  o_prev := 2
  qos := 0
  pstate := PS.NOTHING
  exiting := false

/-- Concrete reachable state used for claim C9's witness: a BAR submitted to
an idle pool is consumed (freed) by the planner. -/
def c9state : PoolState where
  nthreads := 1
  hist := [PEv.submit ⟨0, 1, 0, 0⟩, PEv.consume ⟨0, 1, 0, 0⟩]
  ordered := []
  unordered := []
  inqd := []
  runningl := []
  outq := []
  doneq := []
  freed := [⟨0, 1, 0, 0⟩]
  in_flight := 0
  active_ws := 0
  o_prev := 1
  qos := 0
  pstate := PS.DRAINING
  exiting := false

@[simp] theorem listBefore_nil {α : Type} (x y : α) : listBefore x y [] ↔ False :=
  Iff.rfl

@[simp] theorem listBefore_cons {α : Type} (x y a : α) (l : List α) :
    listBefore x y (a :: l) ↔ ((a = x ∧ y ∈ l) ∨ listBefore x y l) :=
  Iff.rfl

theorem listBefore.mem_left {α : Type} {x y : α} {l : List α}
    (h : listBefore x y l) : x ∈ l := by
  induction l with
  | nil => exact h.elim
  | cons a l ih =>
    rcases h with ⟨rfl, _⟩ | h
    · exact List.mem_cons_self _ _
    · exact List.mem_cons_of_mem _ (ih h)

theorem listBefore.mem_right {α : Type} {x y : α} {l : List α}
    (h : listBefore x y l) : y ∈ l := by
  induction l with
  | nil => exact h.elim
  | cons a l ih =>
    rcases h with ⟨_, hy⟩ | h
    · exact List.mem_cons_of_mem _ hy
    · exact List.mem_cons_of_mem _ (ih h)

theorem listBefore.append_right {α : Type} {x y : α} {l : List α}
    (t : List α) (h : listBefore x y l) : listBefore x y (l ++ t) := by
  induction l with
  | nil => exact h.elim
  | cons a l ih =>
    rcases h with ⟨rfl, hy⟩ | h
    · exact Or.inl ⟨rfl, List.mem_append_left _ hy⟩
    · exact Or.inr (ih h)

theorem listBefore.of_mem_mem {α : Type} {x y : α} {l t : List α}
    (hx : x ∈ l) (hy : y ∈ t) : listBefore x y (l ++ t) := by
  induction l with
  | nil => exact absurd hx (List.not_mem_nil _)
  | cons a l ih =>
    rcases List.mem_cons.mp hx with rfl | hx
    · exact Or.inl ⟨rfl, List.mem_append_right _ hy⟩
    · exact Or.inr (ih hx)

theorem listBefore.snoc_inv {α : Type} {x y e : α} {l : List α}
    (h : listBefore x y (l ++ [e])) :
    listBefore x y l ∨ (e = y ∧ x ∈ l) := by
  induction l with
  | nil =>
    rcases h with ⟨_, hy⟩ | h
    · exact absurd hy (by simp)
    · exact h.elim
  | cons a l ih =>
    rcases h with ⟨rfl, hy⟩ | h
    · rcases List.mem_append.mp hy with hy | hy
      · exact Or.inl (Or.inl ⟨rfl, hy⟩)
      · exact Or.inr ⟨(List.mem_singleton.mp hy).symm, List.mem_cons_self _ _⟩
    · rcases ih h with h | ⟨he, hx⟩
      · exact Or.inl (Or.inr h)
      · exact Or.inr ⟨he, List.mem_cons_of_mem _ hx⟩

theorem listBefore.cons {α : Type} {x y : α} (a : α) {l : List α}
    (h : listBefore x y l) : listBefore x y (a :: l) :=
  Or.inr h

/-- In a duplicate-free list, whatever occurs before `y` in `a ++ y :: b`
occurs in `a`. -/
theorem listBefore.before_self {α : Type} {x y : α} {a b : List α}
    (hnd : (a ++ y :: b).Nodup) (h : listBefore x y (a ++ y :: b)) :
    x ∈ a := by
  induction a with
  | nil =>
    simp only [List.nil_append] at hnd h
    rcases h with ⟨rfl, hy⟩ | h
    · exact absurd hy (List.nodup_cons.mp hnd).1
    · exact absurd h.mem_right (List.nodup_cons.mp hnd).1
  | cons a0 a ih =>
    simp only [List.cons_append] at hnd h
    rcases h with ⟨rfl, _⟩ | h
    · exact List.mem_cons_self _ _
    · exact List.mem_cons_of_mem _ (ih (List.nodup_cons.mp hnd).2 h)

/-- In a duplicate-free list split as `pre ++ suf`, nothing in `suf` occurs
before anything in `pre`. -/
theorem listBefore.not_of_append {α : Type} {x y : α} {pre suf : List α}
    (hnd : (pre ++ suf).Nodup) (hy : y ∈ pre) (hx : x ∈ suf) :
    ¬ listBefore x y (pre ++ suf) := by
  induction pre with
  | nil => exact absurd hy (List.not_mem_nil _)
  | cons p pre ih =>
    intro h
    simp only [List.cons_append] at hnd h
    have hnd' := List.nodup_cons.mp hnd
    rcases h with ⟨rfl, _⟩ | h
    · exact hnd'.1 (List.mem_append_right _ hx)
    · rcases List.mem_cons.mp hy with rfl | hy
      · exact hnd'.1 h.mem_right
      · exact ih hnd'.2 hy h

theorem listBefore.sublist {α : Type} {x y : α} {l L : List α}
    (hsub : l.Sublist L) (hnd : L.Nodup) (h : listBefore x y L)
    (hx : x ∈ l) (hy : y ∈ l) : listBefore x y l := by
  induction hsub with
  | slnil => exact absurd hx (List.not_mem_nil _)
  | cons a hsub ih =>
    have hnd' := List.nodup_cons.mp hnd
    rcases h with ⟨rfl, _⟩ | h
    · exact absurd (hsub.subset hx) hnd'.1
    · exact ih hnd'.2 h hx hy
  | cons₂ a hsub ih =>
    have hnd' := List.nodup_cons.mp hnd
    rcases h with ⟨rfl, hy'⟩ | h
    · refine Or.inl ⟨rfl, ?_⟩
      rcases List.mem_cons.mp hy with rfl | hy
      · exact absurd hy' hnd'.1
      · exact hy
    · refine Or.inr (ih hnd'.2 h ?_ ?_)
      · rcases List.mem_cons.mp hx with rfl | hx
        · exact absurd h.mem_left hnd'.1
        · exact hx
      · rcases List.mem_cons.mp hy with rfl | hy
        · exact absurd h.mem_right hnd'.1
        · exact hy

theorem listBefore.filter {α : Type} {x y : α} {l : List α}
    (p : α → Bool) (h : listBefore x y l) (hx : p x = true) (hy : p y = true) :
    listBefore x y (l.filter p) := by
  induction l with
  | nil => exact h.elim
  | cons a l ih =>
    rcases h with ⟨rfl, hyl⟩ | h
    · rw [List.filter_cons_of_pos hx]
      exact Or.inl ⟨rfl, List.mem_filter.mpr ⟨hyl, hy⟩⟩
    · by_cases hp : p a = true
      · rw [List.filter_cons_of_pos hp]
        exact Or.inr (ih h)
      · rw [List.filter_cons_of_neg (by simpa using hp)]
        exact ih h

@[simp] theorem subsOf_nil : subsOf [] = [] := rfl

@[simp] theorem subsOf_append (h1 h2 : List PEv) :
    subsOf (h1 ++ h2) = subsOf h1 ++ subsOf h2 :=
  List.filterMap_append _ _ _

@[simp] theorem dispOf_nil : dispOf [] = [] := rfl

@[simp] theorem dispOf_append (h1 h2 : List PEv) :
    dispOf (h1 ++ h2) = dispOf h1 ++ dispOf h2 :=
  List.filterMap_append _ _ _

@[simp] theorem subsOf_submit (w : PoolWork) : subsOf [PEv.submit w] = [w] := rfl
@[simp] theorem subsOf_dispatch (w : PoolWork) : subsOf [PEv.dispatch w] = [] := rfl
@[simp] theorem subsOf_start (w : PoolWork) : subsOf [PEv.start w] = [] := rfl
@[simp] theorem subsOf_finish (w : PoolWork) : subsOf [PEv.finish w] = [] := rfl
@[simp] theorem subsOf_after (w : PoolWork) : subsOf [PEv.after w] = [] := rfl
@[simp] theorem subsOf_consume (w : PoolWork) : subsOf [PEv.consume w] = [] := rfl

@[simp] theorem dispOf_submit (w : PoolWork) : dispOf [PEv.submit w] = [] := rfl
@[simp] theorem dispOf_dispatch (w : PoolWork) : dispOf [PEv.dispatch w] = [w] := rfl
@[simp] theorem dispOf_start (w : PoolWork) : dispOf [PEv.start w] = [] := rfl
@[simp] theorem dispOf_finish (w : PoolWork) : dispOf [PEv.finish w] = [] := rfl
@[simp] theorem dispOf_after (w : PoolWork) : dispOf [PEv.after w] = [] := rfl
@[simp] theorem dispOf_consume (w : PoolWork) : dispOf [PEv.consume w] = [] := rfl

theorem mem_subsOf {w : PoolWork} {h : List PEv} :
    w ∈ subsOf h ↔ PEv.submit w ∈ h := by
  constructor
  · intro hw
    obtain ⟨e, he, hf⟩ := List.mem_filterMap.mp hw
    cases e <;> simp_all
  · intro hw
    exact List.mem_filterMap.mpr ⟨PEv.submit w, hw, rfl⟩

theorem mem_dispOf {w : PoolWork} {h : List PEv} :
    w ∈ dispOf h ↔ PEv.dispatch w ∈ h := by
  constructor
  · intro hw
    obtain ⟨e, he, hf⟩ := List.mem_filterMap.mp hw
    cases e <;> simp_all
  · intro hw
    exact List.mem_filterMap.mpr ⟨PEv.dispatch w, hw, rfl⟩

theorem listBefore_subsOf {w1 w2 : PoolWork} {h : List PEv}
    (hlb : listBefore (PEv.submit w1) (PEv.submit w2) h) :
    listBefore w1 w2 (subsOf h) := by
  induction h with
  | nil => exact hlb.elim
  | cons e l ih =>
    rcases hlb with ⟨rfl, hmem⟩ | hlb
    · exact Or.inl ⟨rfl, mem_subsOf.mpr hmem⟩
    · cases e <;> simp only [subsOf, List.filterMap_cons] <;>
        first
          | exact ih hlb
          | exact listBefore.cons _ (ih hlb)

theorem listBefore_dispOf {w1 w2 : PoolWork} {h : List PEv}
    (hlb : listBefore (PEv.dispatch w1) (PEv.dispatch w2) h) :
    listBefore w1 w2 (dispOf h) := by
  induction h with
  | nil => exact hlb.elim
  | cons e l ih =>
    rcases hlb with ⟨rfl, hmem⟩ | hlb
    · exact Or.inl ⟨rfl, mem_dispOf.mpr hmem⟩
    · cases e <;> simp only [dispOf, List.filterMap_cons] <;>
        first
          | exact ih hlb
          | exact listBefore.cons _ (ih hlb)

theorem qos_pop_cases {q : Nat} {o u o' u' : List PoolWork} {w : PoolWork} {q' : Nat}
    (h : qos_pop q o u = some (w, o', u', q')) :
    (o = w :: o' ∧ u' = u) ∨ (u = w :: u' ∧ o' = o) := by
  match o, u with
  | [], [] => exact absurd h (by simp [qos_pop])
  | [], w0 :: us =>
    simp only [qos_pop, Option.some.injEq, Prod.mk.injEq] at h
    exact Or.inr ⟨by rw [h.1, h.2.2.1], h.2.1.symm⟩
  | w0 :: os, [] =>
    simp only [qos_pop, Option.some.injEq, Prod.mk.injEq] at h
    exact Or.inl ⟨by rw [h.1, h.2.1], h.2.2.1.symm⟩
  | w1 :: os, w2 :: us =>
    simp only [qos_pop] at h
    split at h <;> simp only [Option.some.injEq, Prod.mk.injEq] at h
    · exact Or.inl ⟨by rw [h.1, h.2.1], h.2.2.1.symm⟩
    · exact Or.inr ⟨by rw [h.1, h.2.2.1], h.2.1.symm⟩

theorem perm_of_ms {l1 l2 : List PoolWork} (h : (↑l1 : Multiset PoolWork) = ↑l2) :
    l1.Perm l2 :=
  Multiset.coe_eq_coe.mp h

theorem mem_places_iff {s : PoolState} {w : PoolWork} :
    w ∈ places s ↔
      w ∈ s.ordered ∨ w ∈ s.unordered ∨ w ∈ s.inqd ∨ w ∈ s.runningl ∨
        w ∈ s.outq ∨ w ∈ s.doneq ∨ w ∈ s.freed := by
  simp [places, List.mem_append, or_assoc]

theorem PoolInv.nodupSubs {s : PoolState} (hs : PoolInv s) : (subsOf s.hist).Nodup :=
  hs.nodupIds.of_map

theorem PoolInv.nodupPlaces {s : PoolState} (hs : PoolInv s) : (places s).Nodup :=
  hs.perm.nodup_iff.mpr hs.nodupSubs

theorem PoolInv.nodupOrdSubs {s : PoolState} (hs : PoolInv s) : (ordSubs s.hist).Nodup :=
  hs.nodupSubs.filter _

theorem PoolInv.nodupInqd {s : PoolState} (hs : PoolInv s) : s.inqd.Nodup :=
  hs.nodupDisp.sublist hs.inqSub

theorem PoolInv.mem_subs_iff {s : PoolState} (hs : PoolInv s) {w : PoolWork} :
    w ∈ subsOf s.hist ↔
      w ∈ s.ordered ∨ w ∈ s.unordered ∨ w ∈ s.inqd ∨ w ∈ s.runningl ∨
        w ∈ s.outq ∨ w ∈ s.doneq ∨ w ∈ s.freed := by
  rw [← hs.perm.mem_iff]; exact mem_places_iff

/-- An item at the head of the ordered queue splits the ordered submission
sequence; everything ordered submitted before it has left the queue. -/
theorem PoolInv.ordered_disj {s : PoolState} (hs : PoolInv s) {w : PoolWork}
    (hw : w ∈ s.ordered) :
    w ∉ s.unordered ∧ w ∉ s.inqd ∧ w ∉ s.runningl ∧ w ∉ s.outq ∧
      w ∉ s.doneq ∧ w ∉ s.freed := by
  have h := hs.nodupPlaces
  rw [places] at h
  have hdisj := List.disjoint_left.mp (List.nodup_append.mp h).2.2 hw
  simp only [List.mem_append, not_or] at hdisj
  exact ⟨hdisj.1, hdisj.2.1, hdisj.2.2.1, hdisj.2.2.2.1, hdisj.2.2.2.2.1,
    hdisj.2.2.2.2.2⟩

theorem PoolInv.unordered_disj {s : PoolState} (hs : PoolInv s) {w : PoolWork}
    (hw : w ∈ s.unordered) :
    w ∉ s.ordered ∧ w ∉ s.inqd ∧ w ∉ s.runningl ∧ w ∉ s.outq ∧
      w ∉ s.doneq ∧ w ∉ s.freed := by
  have h := hs.nodupPlaces
  rw [places] at h
  rcases List.nodup_append.mp h with ⟨_, h2, hdisj1⟩
  rcases List.nodup_append.mp h2 with ⟨_, _, hdisj2⟩
  have hd1 : w ∉ s.ordered := fun hc =>
    List.disjoint_left.mp hdisj1 hc (List.mem_append_left _ hw)
  have hd2 := List.disjoint_left.mp hdisj2 hw
  simp only [List.mem_append, not_or] at hd2
  exact ⟨hd1, hd2.1, hd2.2.1, hd2.2.2.1, hd2.2.2.2.1, hd2.2.2.2.2⟩

/-- A fresh id has no events in the history. -/
theorem PoolInv.fresh_no_events {s : PoolState} (hs : PoolInv s) {w : PoolWork}
    (hfresh : w.wid ∉ (subsOf s.hist).map PoolWork.wid) :
    PEv.submit w ∉ s.hist ∧ PEv.dispatch w ∉ s.hist ∧ PEv.start w ∉ s.hist ∧
      PEv.finish w ∉ s.hist ∧ PEv.after w ∉ s.hist ∧ PEv.consume w ∉ s.hist := by
  have hsub : w ∉ subsOf s.hist := fun hmem => hfresh (List.mem_map_of_mem _ hmem)
  have hloc : ¬ (w ∈ s.ordered ∨ w ∈ s.unordered ∨ w ∈ s.inqd ∨ w ∈ s.runningl ∨
      w ∈ s.outq ∨ w ∈ s.doneq ∨ w ∈ s.freed) := fun hc => hsub (hs.mem_subs_iff.mpr hc)
  simp only [not_or] at hloc
  refine ⟨fun hc => hsub (mem_subsOf.mpr hc), fun hc => ?_, fun hc => ?_,
    fun hc => ?_, fun hc => ?_, fun hc => ?_⟩
  · rcases (hs.hDisp w).mp hc with h | h | h | h
    · exact hloc.2.2.1 h
    · exact hloc.2.2.2.1 h
    · exact hloc.2.2.2.2.1 h
    · exact hloc.2.2.2.2.2.1 h
  · rcases (hs.hStart w).mp hc with h | h | h
    · exact hloc.2.2.2.1 h
    · exact hloc.2.2.2.2.1 h
    · exact hloc.2.2.2.2.2.1 h
  · rcases (hs.hFin w).mp hc with h | h
    · exact hloc.2.2.2.2.1 h
    · exact hloc.2.2.2.2.2.1 h
  · exact hloc.2.2.2.2.2.1 ((hs.hAfter w).mp hc)
  · exact hloc.2.2.2.2.2.2 ((hs.hCons w).mp hc)

theorem poolInv_init (n : Nat) : PoolInv (initPool n) := by
  constructor <;> simp [initPool, places, ordSubs]

/-- Transitions that only change the planner state preserve the invariant. -/
theorem poolInv_pstate {s : PoolState} (hs : PoolInv s) (p : PS) :
    PoolInv { s with pstate := p } :=
  { perm := hs.perm, nodupIds := hs.nodupIds, typU := hs.typU, typO := hs.typO
    noBar := hs.noBar, freedBar := hs.freedBar, iflt := hs.iflt, aws := hs.aws
    osuf := hs.osuf, inqSub := hs.inqSub, nodupDisp := hs.nodupDisp
    tidEq := hs.tidEq, hDisp := hs.hDisp, hStart := hs.hStart, hFin := hs.hFin
    hAfter := hs.hAfter, hCons := hs.hCons, dispOrd := hs.dispOrd
    c1a := hs.c1a, c1u := hs.c1u, c1d := hs.c1d, c1b := hs.c1b, c2o := hs.c2o }

/-- Setting the `exiting` flag preserves the invariant. -/
theorem poolInv_exiting {s : PoolState} (hs : PoolInv s) :
    PoolInv { s with exiting := true } :=
  { perm := hs.perm, nodupIds := hs.nodupIds, typU := hs.typU, typO := hs.typO
    noBar := hs.noBar, freedBar := hs.freedBar, iflt := hs.iflt, aws := hs.aws
    osuf := hs.osuf, inqSub := hs.inqSub, nodupDisp := hs.nodupDisp
    tidEq := hs.tidEq, hDisp := hs.hDisp, hStart := hs.hStart, hFin := hs.hFin
    hAfter := hs.hAfter, hCons := hs.hCons, dispOrd := hs.dispOrd
    c1a := hs.c1a, c1u := hs.c1u, c1d := hs.c1d, c1b := hs.c1b, c2o := hs.c2o }

/-- Appending one event preserves the `c1a` ordering field, given the core
fact at a `consume` event and freshness at a `submit` event. -/
theorem c1a_preserve {s : PoolState} (hs : PoolInv s) (e : PEv)
    (hfresh : ∀ w : PoolWork, e = PEv.submit w →
      w.wid ∉ (subsOf s.hist).map PoolWork.wid)
    (hcore : ∀ B : PoolWork, e = PEv.consume B → B.wtype = WT_BAR →
      ∀ w1 : PoolWork, WT_ORD1 ≤ w1.wtype →
        listBefore (PEv.submit w1) (PEv.submit B) s.hist → PEv.finish w1 ∈ s.hist) :
    ∀ B w1 : PoolWork, B.wtype = WT_BAR → WT_ORD1 ≤ w1.wtype →
      listBefore (PEv.submit w1) (PEv.submit B) (s.hist ++ [e]) →
      PEv.consume B ∈ s.hist ++ [e] →
      listBefore (PEv.finish w1) (PEv.consume B) (s.hist ++ [e]) := by
  intro B w1 hB hw1 hlb hcb
  rcases listBefore.snoc_inv hlb with hlb | ⟨he, _⟩
  · rcases List.mem_append.mp hcb with hcb | hcb
    · exact listBefore.append_right _ (hs.c1a B w1 hB hw1 hlb hcb)
    · have he : e = PEv.consume B := (List.mem_singleton.mp hcb).symm
      exact listBefore.of_mem_mem (hcore B he hB w1 hw1 hlb) (by simp [he])
  · exfalso
    have hne := (hs.fresh_no_events (hfresh B he)).2.2.2.2.2
    rcases List.mem_append.mp hcb with hcb | hcb
    · exact hne hcb
    · simp [he] at hcb

/-- Appending one event preserves the `c1u` ordering field. -/
theorem c1u_preserve {s : PoolState} (hs : PoolInv s) (e : PEv)
    (hfresh : ∀ w : PoolWork, e = PEv.submit w →
      w.wid ∉ (subsOf s.hist).map PoolWork.wid)
    (hcore : ∀ B : PoolWork, e = PEv.consume B → B.wtype = WT_BAR →
      ∀ w1 : PoolWork, w1.wtype = WT_UNORD →
        listBefore (PEv.submit w1) (PEv.submit B) s.hist →
        PEv.dispatch w1 ∈ s.hist) :
    ∀ B w1 : PoolWork, B.wtype = WT_BAR → w1.wtype = WT_UNORD →
      listBefore (PEv.submit w1) (PEv.submit B) (s.hist ++ [e]) →
      PEv.consume B ∈ s.hist ++ [e] →
      listBefore (PEv.dispatch w1) (PEv.consume B) (s.hist ++ [e]) := by
  intro B w1 hB hw1 hlb hcb
  rcases listBefore.snoc_inv hlb with hlb | ⟨he, _⟩
  · rcases List.mem_append.mp hcb with hcb | hcb
    · exact listBefore.append_right _ (hs.c1u B w1 hB hw1 hlb hcb)
    · have he : e = PEv.consume B := (List.mem_singleton.mp hcb).symm
      exact listBefore.of_mem_mem (hcore B he hB w1 hw1 hlb) (by simp [he])
  · exfalso
    have hne := (hs.fresh_no_events (hfresh B he)).2.2.2.2.2
    rcases List.mem_append.mp hcb with hcb | hcb
    · exact hne hcb
    · simp [he] at hcb

/-- Appending one event preserves the `c1d` ordering field. -/
theorem c1d_preserve {s : PoolState} (hs : PoolInv s) (e : PEv)
    (hfresh : ∀ w : PoolWork, e = PEv.submit w →
      w.wid ∉ (subsOf s.hist).map PoolWork.wid)
    (hcore : ∀ B : PoolWork, e = PEv.consume B → B.wtype = WT_BAR →
      ∀ B0 : PoolWork, B0.wtype = WT_BAR →
        listBefore (PEv.submit B0) (PEv.submit B) s.hist →
        PEv.consume B0 ∈ s.hist) :
    ∀ B B0 : PoolWork, B.wtype = WT_BAR → B0.wtype = WT_BAR →
      listBefore (PEv.submit B0) (PEv.submit B) (s.hist ++ [e]) →
      PEv.consume B ∈ s.hist ++ [e] →
      listBefore (PEv.consume B0) (PEv.consume B) (s.hist ++ [e]) := by
  intro B B0 hB hB0 hlb hcb
  rcases listBefore.snoc_inv hlb with hlb | ⟨he, _⟩
  · rcases List.mem_append.mp hcb with hcb | hcb
    · exact listBefore.append_right _ (hs.c1d B B0 hB hB0 hlb hcb)
    · have he : e = PEv.consume B := (List.mem_singleton.mp hcb).symm
      exact listBefore.of_mem_mem (hcore B he hB B0 hB0 hlb) (by simp [he])
  · exfalso
    have hne := (hs.fresh_no_events (hfresh B he)).2.2.2.2.2
    rcases List.mem_append.mp hcb with hcb | hcb
    · exact hne hcb
    · simp [he] at hcb

/-- Appending one event preserves the `c1b` ordering field, given the core
fact at a `start` event. -/
theorem c1b_preserve {s : PoolState} (hs : PoolInv s) (e : PEv)
    (hfresh : ∀ w : PoolWork, e = PEv.submit w →
      w.wid ∉ (subsOf s.hist).map PoolWork.wid)
    (hcore : ∀ w2 : PoolWork, e = PEv.start w2 → WT_UNORD < w2.wtype →
      ∀ B : PoolWork, B.wtype = WT_BAR →
        listBefore (PEv.submit B) (PEv.submit w2) s.hist →
        PEv.consume B ∈ s.hist) :
    ∀ B w2 : PoolWork, B.wtype = WT_BAR → WT_UNORD < w2.wtype →
      listBefore (PEv.submit B) (PEv.submit w2) (s.hist ++ [e]) →
      PEv.start w2 ∈ s.hist ++ [e] →
      listBefore (PEv.consume B) (PEv.start w2) (s.hist ++ [e]) := by
  intro B w2 hB hw2 hlb hst
  rcases listBefore.snoc_inv hlb with hlb | ⟨he, _⟩
  · rcases List.mem_append.mp hst with hst | hst
    · exact listBefore.append_right _ (hs.c1b B w2 hB hw2 hlb hst)
    · have he : e = PEv.start w2 := (List.mem_singleton.mp hst).symm
      exact listBefore.of_mem_mem (hcore w2 he hw2 B hB hlb) (by simp [he])
  · exfalso
    have hne := (hs.fresh_no_events (hfresh w2 he)).2.2.1
    rcases List.mem_append.mp hst with hst | hst
    · exact hne hst
    · simp [he] at hst

/-- Appending one event preserves the `c2o` ordering field, given the core
fact at a `start` event. -/
theorem c2o_preserve {s : PoolState} (hs : PoolInv s) (e : PEv)
    (hfresh : ∀ w : PoolWork, e = PEv.submit w →
      w.wid ∉ (subsOf s.hist).map PoolWork.wid)
    (hcore : ∀ w2 : PoolWork, e = PEv.start w2 → WT_ORD1 ≤ w2.wtype →
      ∀ w1 : PoolWork, WT_ORD1 ≤ w1.wtype → w1.thread_id = w2.thread_id →
        listBefore (PEv.submit w1) (PEv.submit w2) s.hist →
        PEv.start w1 ∈ s.hist) :
    ∀ w1 w2 : PoolWork, WT_ORD1 ≤ w1.wtype → WT_ORD1 ≤ w2.wtype →
      w1.thread_id = w2.thread_id →
      listBefore (PEv.submit w1) (PEv.submit w2) (s.hist ++ [e]) →
      PEv.start w2 ∈ s.hist ++ [e] →
      listBefore (PEv.start w1) (PEv.start w2) (s.hist ++ [e]) := by
  intro w1 w2 hw1 hw2 htid hlb hst
  rcases listBefore.snoc_inv hlb with hlb | ⟨he, _⟩
  · rcases List.mem_append.mp hst with hst | hst
    · exact listBefore.append_right _ (hs.c2o w1 w2 hw1 hw2 htid hlb hst)
    · have he : e = PEv.start w2 := (List.mem_singleton.mp hst).symm
      exact listBefore.of_mem_mem (hcore w2 he hw2 w1 hw1 htid hlb) (by simp [he])
  · exfalso
    have hne := (hs.fresh_no_events (hfresh w2 he)).2.2.1
    rcases List.mem_append.mp hst with hst | hst
    · exact hne hst
    · simp [he] at hst

/-- Appending one event preserves the `dispOrd` ordering field, given the
core fact at a `dispatch` event. -/
theorem dispOrd_preserve {s : PoolState} (hs : PoolInv s) (e : PEv)
    (hfresh : ∀ w : PoolWork, e = PEv.submit w →
      w.wid ∉ (subsOf s.hist).map PoolWork.wid)
    (hcore : ∀ w2 : PoolWork, e = PEv.dispatch w2 → WT_UNORD < w2.wtype →
      ∀ w1 : PoolWork, WT_ORD1 ≤ w1.wtype →
        listBefore (PEv.submit w1) (PEv.submit w2) s.hist →
        PEv.dispatch w1 ∈ s.hist) :
    ∀ w1 w2 : PoolWork, WT_ORD1 ≤ w1.wtype → WT_UNORD < w2.wtype →
      listBefore (PEv.submit w1) (PEv.submit w2) (s.hist ++ [e]) →
      PEv.dispatch w2 ∈ s.hist ++ [e] →
      listBefore (PEv.dispatch w1) (PEv.dispatch w2) (s.hist ++ [e]) := by
  intro w1 w2 hw1 hw2 hlb hdp
  rcases listBefore.snoc_inv hlb with hlb | ⟨he, _⟩
  · rcases List.mem_append.mp hdp with hdp | hdp
    · exact listBefore.append_right _ (hs.dispOrd w1 w2 hw1 hw2 hlb hdp)
    · have he : e = PEv.dispatch w2 := (List.mem_singleton.mp hdp).symm
      exact listBefore.of_mem_mem (hcore w2 he hw2 w1 hw1 hlb) (by simp [he])
  · exfalso
    have hne := (hs.fresh_no_events (hfresh w2 he)).2.1
    rcases List.mem_append.mp hdp with hdp | hdp
    · exact hne hdp
    · simp [he] at hdp

/-- If `w` heads the ordered queue, any ordered item submitted before `w` has
already left the queue. -/
theorem PoolInv.submitted_before_head {s : PoolState} (hs : PoolInv s)
    {w w1 : PoolWork} {rest : List PoolWork} (ho : s.ordered = w :: rest)
    (hw1 : WT_UNORD < w1.wtype) (hw : WT_UNORD < w.wtype)
    (hlb : listBefore (PEv.submit w1) (PEv.submit w) s.hist) :
    w1 ∉ s.ordered ∧ w1 ∈ subsOf s.hist := by
  obtain ⟨t, ht⟩ := hs.osuf
  have hlbo : listBefore w1 w (ordSubs s.hist) :=
    listBefore.filter _ (listBefore_subsOf hlb) (decide_eq_true hw1) (decide_eq_true hw)
  have hnd : (ordSubs s.hist).Nodup := hs.nodupOrdSubs
  rw [← ht, ho] at hlbo hnd
  have hmem : w1 ∈ t := listBefore.before_self hnd hlbo
  refine ⟨fun hmem2 => ?_, mem_subsOf.mpr hlb.mem_left⟩
  rw [ho] at hmem2
  exact List.disjoint_left.mp (List.nodup_append.mp hnd).2.2 hmem hmem2

/-- An ordered item still in the ordered queue cannot have been submitted
before an ordered item that has already left it. -/
theorem PoolInv.lb_into_queue_absurd {s : PoolState} (hs : PoolInv s)
    {x y : PoolWork} (hx : x ∈ s.ordered) (hy : y ∉ s.ordered)
    (hysub : y ∈ subsOf s.hist) (hxo : WT_UNORD < x.wtype)
    (hyo : WT_UNORD < y.wtype)
    (hlb : listBefore (PEv.submit x) (PEv.submit y) s.hist) : False := by
  obtain ⟨t, ht⟩ := hs.osuf
  have hlbo : listBefore x y (ordSubs s.hist) :=
    listBefore.filter _ (listBefore_subsOf hlb) (decide_eq_true hxo) (decide_eq_true hyo)
  have hnd : (ordSubs s.hist).Nodup := hs.nodupOrdSubs
  have hyt : y ∈ t := by
    have hmem : y ∈ ordSubs s.hist := List.mem_filter.mpr ⟨hysub, decide_eq_true hyo⟩
    rw [← ht] at hmem
    rcases List.mem_append.mp hmem with h | h
    · exact h
    · exact absurd h hy
  rw [← ht] at hlbo hnd
  exact listBefore.not_of_append hnd hyt hx hlbo

/-- With `in_flight = 0`, no strictly ordered item is in an inbox or
executing. -/
theorem PoolInv.no_ordered_pending {s : PoolState} (hs : PoolInv s)
    (hif : s.in_flight = 0) :
    ∀ w : PoolWork, WT_ORD1 ≤ w.wtype → w ∉ s.inqd ∧ w ∉ s.runningl := by
  have h := hs.iflt
  rw [hif] at h
  have hz := List.countP_eq_zero.mp h.symm
  intro w hw
  exact ⟨fun hc => hz w (List.mem_append_left _ hc) (decide_eq_true hw),
    fun hc => hz w (List.mem_append_right _ hc) (decide_eq_true hw)⟩

/-- Core facts available when the planner consumes a BAR at the head of the
ordered queue with `in_flight = 0` and an empty unordered queue: every
strictly ordered item submitted earlier has finished its work callback, every
unordered item submitted so far has been dispatched, and every earlier BAR
has been consumed. -/
theorem PoolInv.consume_core {s : PoolState} (hs : PoolInv s) {w : PoolWork}
    {rest : List PoolWork} (hu : s.unordered = []) (hif : s.in_flight = 0)
    (ho : s.ordered = w :: rest) (hbar : w.wtype = WT_BAR) :
    (∀ w1 : PoolWork, WT_ORD1 ≤ w1.wtype →
      listBefore (PEv.submit w1) (PEv.submit w) s.hist → PEv.finish w1 ∈ s.hist) ∧
    (∀ w1 : PoolWork, w1.wtype = WT_UNORD → PEv.submit w1 ∈ s.hist →
      PEv.dispatch w1 ∈ s.hist) ∧
    (∀ B0 : PoolWork, B0.wtype = WT_BAR →
      listBefore (PEv.submit B0) (PEv.submit w) s.hist → PEv.consume B0 ∈ s.hist) := by
  have hw' : WT_UNORD < w.wtype := by rw [hbar]; decide
  refine ⟨?_, ?_, ?_⟩
  · intro w1 hw1 hlb
    obtain ⟨hnotin, hsub⟩ :=
      hs.submitted_before_head ho (lt_of_lt_of_le (by decide) hw1) hw' hlb
    rcases hs.mem_subs_iff.mp hsub with h | h | h | h | h | h | h
    · exact absurd h hnotin
    · rw [hu] at h; exact absurd h (List.not_mem_nil _)
    · exact absurd h (hs.no_ordered_pending hif w1 hw1).1
    · exact absurd h (hs.no_ordered_pending hif w1 hw1).2
    · exact (hs.hFin w1).mpr (Or.inl h)
    · exact (hs.hFin w1).mpr (Or.inr h)
    · have h1 := hs.freedBar w1 h; rw [h1] at hw1; exact absurd hw1 (by decide)
  · intro w1 hw1 hsubm
    rcases hs.mem_subs_iff.mp (mem_subsOf.mpr hsubm) with h | h | h | h | h | h | h
    · have h1 := hs.typO w1 h; rw [hw1] at h1; exact absurd h1 (by decide)
    · rw [hu] at h; exact absurd h (List.not_mem_nil _)
    · exact (hs.hDisp w1).mpr (Or.inl h)
    · exact (hs.hDisp w1).mpr (Or.inr (Or.inl h))
    · exact (hs.hDisp w1).mpr (Or.inr (Or.inr (Or.inl h)))
    · exact (hs.hDisp w1).mpr (Or.inr (Or.inr (Or.inr h)))
    · have h1 := hs.freedBar w1 h; rw [hw1] at h1; exact absurd h1 (by decide)
  · intro B0 hB0 hlb
    have hB0' : WT_UNORD < B0.wtype := by rw [hB0]; decide
    obtain ⟨hnotin, hsub⟩ := hs.submitted_before_head ho hB0' hw' hlb
    rcases hs.mem_subs_iff.mp hsub with h | h | h | h | h | h | h
    · exact absurd h hnotin
    · have h1 := hs.typU B0 h; rw [hB0] at h1; exact absurd h1 (by decide)
    · exact absurd hB0 (hs.noBar B0 (Or.inl h))
    · exact absurd hB0 (hs.noBar B0 (Or.inr (Or.inl h)))
    · exact absurd hB0 (hs.noBar B0 (Or.inr (Or.inr (Or.inl h))))
    · exact absurd hB0 (hs.noBar B0 (Or.inr (Or.inr (Or.inr h))))
    · exact (hs.hCons B0).mpr h

/-- Core facts available when worker `w.thread_id` pops `w` from the head of
its inbox: every BAR submitted before `w` (an ordered item) has been consumed,
and every strictly ordered item with the same worker submitted before `w` has
already started. -/
theorem PoolInv.start_core {s : PoolState} (hs : PoolInv s) {w : PoolWork}
    {pre post : List PoolWork} (hq : s.inqd = pre ++ w :: post)
    (hpre : ∀ x ∈ pre, x.thread_id ≠ w.thread_id) :
    (∀ B : PoolWork, B.wtype = WT_BAR → WT_UNORD < w.wtype →
      listBefore (PEv.submit B) (PEv.submit w) s.hist → PEv.consume B ∈ s.hist) ∧
    (∀ w1 : PoolWork, WT_ORD1 ≤ w1.wtype → WT_ORD1 ≤ w.wtype →
      w1.thread_id = w.thread_id →
      listBefore (PEv.submit w1) (PEv.submit w) s.hist → PEv.start w1 ∈ s.hist) := by
  have hwin : w ∈ s.inqd := by
    rw [hq]; exact List.mem_append_right _ (List.mem_cons_self _ _)
  have hwnotord : w ∉ s.ordered := fun hc => (hs.ordered_disj hc).2.1 hwin
  have hwsub : w ∈ subsOf s.hist := hs.mem_subs_iff.mpr (Or.inr (Or.inr (Or.inl hwin)))
  constructor
  · intro B hB hwo hlb
    rcases hs.mem_subs_iff.mp (mem_subsOf.mpr hlb.mem_left) with h | h | h | h | h | h | h
    · exact (hs.lb_into_queue_absurd h hwnotord hwsub (by rw [hB]; decide) hwo hlb).elim
    · have h1 := hs.typU B h; rw [hB] at h1; exact absurd h1 (by decide)
    · exact absurd hB (hs.noBar B (Or.inl h))
    · exact absurd hB (hs.noBar B (Or.inr (Or.inl h)))
    · exact absurd hB (hs.noBar B (Or.inr (Or.inr (Or.inl h))))
    · exact absurd hB (hs.noBar B (Or.inr (Or.inr (Or.inr h))))
    · exact (hs.hCons B).mpr h
  · intro w1 hw1 hwo htid hlb
    rcases hs.mem_subs_iff.mp (mem_subsOf.mpr hlb.mem_left) with h | h | h | h | h | h | h
    · exact (hs.lb_into_queue_absurd h hwnotord hwsub
        (lt_of_lt_of_le (by decide) hw1) (lt_of_lt_of_le (by decide) hwo) hlb).elim
    · have h1 := hs.typU w1 h; rw [h1] at hw1; exact absurd hw1 (by decide)
    · exfalso
      have hdw : PEv.dispatch w ∈ s.hist := (hs.hDisp w).mpr (Or.inl hwin)
      have hlbd := hs.dispOrd w1 w hw1 (lt_of_lt_of_le (by decide) hwo) hlb hdw
      have hlbinq : listBefore w1 w s.inqd :=
        listBefore.sublist hs.inqSub hs.nodupDisp (listBefore_dispOf hlbd) h hwin
      have hnd : s.inqd.Nodup := hs.nodupInqd
      rw [hq] at hlbinq hnd
      exact hpre w1 (listBefore.before_self hnd hlbinq) htid
    · exact (hs.hStart w1).mpr (Or.inl h)
    · exact (hs.hStart w1).mpr (Or.inr (Or.inl h))
    · exact (hs.hStart w1).mpr (Or.inr (Or.inr h))
    · have h1 := hs.freedBar w1 h; rw [h1] at hw1; exact absurd hw1 (by decide)

/-- Core fact available when the planner dispatches the head `w` of the
ordered queue: every strictly ordered item submitted before `w` has already
been dispatched. -/
theorem PoolInv.dispatch_core {s : PoolState} (hs : PoolInv s) {w : PoolWork}
    {rest : List PoolWork} (ho : s.ordered = w :: rest) (hwo : WT_UNORD < w.wtype) :
    ∀ w1 : PoolWork, WT_ORD1 ≤ w1.wtype →
      listBefore (PEv.submit w1) (PEv.submit w) s.hist → PEv.dispatch w1 ∈ s.hist := by
  intro w1 hw1 hlb
  obtain ⟨hnotin, hsub⟩ :=
    hs.submitted_before_head ho (lt_of_lt_of_le (by decide) hw1) hwo hlb
  rcases hs.mem_subs_iff.mp hsub with h | h | h | h | h | h | h
  · exact absurd h hnotin
  · have h1 := hs.typU w1 h; rw [h1] at hw1; exact absurd hw1 (by decide)
  · exact (hs.hDisp w1).mpr (Or.inl h)
  · exact (hs.hDisp w1).mpr (Or.inr (Or.inl h))
  · exact (hs.hDisp w1).mpr (Or.inr (Or.inr (Or.inl h)))
  · exact (hs.hDisp w1).mpr (Or.inr (Or.inr (Or.inr h)))
  · have h1 := hs.freedBar w1 h; rw [h1] at hw1; exact absurd hw1 (by decide)

theorem poolInv_submit {s : PoolState} (hs : PoolInv s) (idn t c : Nat)
    (hfresh : idn ∉ (subsOf s.hist).map PoolWork.wid)
    (hpre : WT_UNORD < t → (s.o_prev ≠ WT_BAR ∧ t ≠ WT_BAR) → s.o_prev = t) :
    PoolInv { s with
      hist := s.hist ++ [PEv.submit ⟨idn, t, c, c % s.nthreads⟩]
      ordered := if t = WT_UNORD then s.ordered
                 else s.ordered ++ [⟨idn, t, c, c % s.nthreads⟩]
      unordered := if t = WT_UNORD then s.unordered ++ [⟨idn, t, c, c % s.nthreads⟩]
                   else s.unordered
      o_prev := if WT_UNORD < t then t else s.o_prev
      active_ws := if t ≠ WT_BAR then s.active_ws + 1 else s.active_ws } := by
  have hfr : (⟨idn, t, c, c % s.nthreads⟩ : PoolWork).wid ∉
      (subsOf s.hist).map PoolWork.wid := hfresh
  have hfev := hs.fresh_no_events hfr
  have hfrfn : ∀ w' : PoolWork,
      PEv.submit (⟨idn, t, c, c % s.nthreads⟩ : PoolWork) = PEv.submit w' →
      w'.wid ∉ (subsOf s.hist).map PoolWork.wid := by
    intro w' he
    cases he
    exact hfresh
  refine
    { perm := ?_, nodupIds := ?_, typU := ?_, typO := ?_, noBar := ?_
      freedBar := ?_, iflt := ?_, aws := ?_, osuf := ?_, inqSub := ?_
      nodupDisp := ?_, tidEq := ?_, hDisp := ?_, hStart := ?_, hFin := ?_
      hAfter := ?_, hCons := ?_
      dispOrd := dispOrd_preserve hs _ hfrfn (fun w2 he => by simp at he)
      c1a := c1a_preserve hs _ hfrfn (fun B he => by simp at he)
      c1u := c1u_preserve hs _ hfrfn (fun B he => by simp at he)
      c1d := c1d_preserve hs _ hfrfn (fun B he => by simp at he)
      c1b := c1b_preserve hs _ hfrfn (fun w2 he => by simp at he)
      c2o := c2o_preserve hs _ hfrfn (fun w2 he => by simp at he) }
  · -- perm
    refine perm_of_ms ?_
    have hp := Multiset.coe_eq_coe.mpr hs.perm
    simp only [places, ← Multiset.coe_add] at hp
    by_cases ht : t = WT_UNORD <;>
      simp only [places, ht, if_true, if_false, ite_true, ite_false, reduceIte,
        subsOf_append, subsOf_submit, ← Multiset.coe_add] <;>
      rw [← hp] <;> abel
  · -- nodupIds
    simp only [subsOf_append, subsOf_submit, List.map_append]
    refine List.Nodup.append hs.nodupIds (List.nodup_singleton _) ?_
    intro a ha hb
    simp only [List.map_cons, List.map_nil, List.mem_singleton] at hb
    subst hb
    exact hfresh ha
  · -- typU
    by_cases ht : t = WT_UNORD <;> simp only [ht, reduceIte, ite_true, ite_false]
    · intro x hx
      rcases List.mem_append.mp hx with hx | hx
      · exact hs.typU x hx
      · rw [List.mem_singleton] at hx
        subst hx
        rfl
    · exact hs.typU
  · -- typO
    by_cases ht : t = WT_UNORD <;> simp only [ht, reduceIte, ite_true, ite_false]
    · exact hs.typO
    · intro x hx
      rcases List.mem_append.mp hx with hx | hx
      · exact hs.typO x hx
      · rw [List.mem_singleton] at hx
        subst hx
        exact Nat.pos_of_ne_zero ht
  · -- noBar
    exact hs.noBar
  · -- freedBar
    exact hs.freedBar
  · -- iflt
    exact hs.iflt
  · -- aws
    by_cases ht : t = WT_UNORD
    · subst ht
      rw [hs.aws]
      simp [List.countP_append, WT_UNORD, WT_BAR]
      all_goals omega
    · by_cases hb : t = WT_BAR
      · subst hb
        rw [hs.aws]
        simp [List.countP_append, WT_UNORD, WT_BAR]
      · rw [hs.aws]
        simp [List.countP_append, ht, hb]
        all_goals omega
  · -- osuf
    obtain ⟨t0, ht0⟩ := hs.osuf
    by_cases ht : t = WT_UNORD
    · subst ht
      refine ⟨t0, ?_⟩
      simp only [reduceIte, ite_true, eq_self_iff_true, ordSubs, subsOf_append,
        subsOf_submit, List.filter_append]
      have hfil : List.filter (fun w => decide (WT_UNORD < w.wtype))
          [(⟨idn, WT_UNORD, c, c % s.nthreads⟩ : PoolWork)] = [] := by
        simp [WT_UNORD]
      rw [hfil, List.append_nil]
      exact ht0
    · refine ⟨t0, ?_⟩
      simp only [ht, reduceIte, ite_false, ordSubs, subsOf_append,
        subsOf_submit, List.filter_append]
      have hfil : List.filter (fun w => decide (WT_UNORD < w.wtype))
          [(⟨idn, t, c, c % s.nthreads⟩ : PoolWork)] =
          [⟨idn, t, c, c % s.nthreads⟩] := by
        simp [Nat.pos_of_ne_zero ht, WT_UNORD]
      rw [hfil, ← List.append_assoc, ht0]
      rfl
  · -- inqSub
    simpa using hs.inqSub
  · -- nodupDisp
    simpa using hs.nodupDisp
  · -- tidEq
    intro x hx
    simp only [subsOf_append, subsOf_submit] at hx
    rcases List.mem_append.mp hx with hx | hx
    · exact hs.tidEq x hx
    · rw [List.mem_singleton] at hx
      subst hx
      rfl
  · -- hDisp
    intro x
    simp only [List.mem_append, List.mem_singleton]
    rw [← hs.hDisp x]
    simp
  · -- hStart
    intro x
    simp only [List.mem_append, List.mem_singleton]
    rw [← hs.hStart x]
    simp
  · -- hFin
    intro x
    simp only [List.mem_append, List.mem_singleton]
    rw [← hs.hFin x]
    simp
  · -- hAfter
    intro x
    simp only [List.mem_append, List.mem_singleton]
    rw [← hs.hAfter x]
    simp
  · -- hCons
    intro x
    simp only [List.mem_append, List.mem_singleton]
    rw [← hs.hCons x]
    simp

@[simp] theorem ordSubs_nil : ordSubs [] = [] := rfl

@[simp] theorem ordSubs_append (h1 h2 : List PEv) :
    ordSubs (h1 ++ h2) = ordSubs h1 ++ ordSubs h2 := by
  simp [ordSubs]

@[simp] theorem ordSubs_dispatch (w : PoolWork) : ordSubs [PEv.dispatch w] = [] := rfl
@[simp] theorem ordSubs_start (w : PoolWork) : ordSubs [PEv.start w] = [] := rfl
@[simp] theorem ordSubs_finish (w : PoolWork) : ordSubs [PEv.finish w] = [] := rfl
@[simp] theorem ordSubs_after (w : PoolWork) : ordSubs [PEv.after w] = [] := rfl
@[simp] theorem ordSubs_consume (w : PoolWork) : ordSubs [PEv.consume w] = [] := rfl

theorem ordSubs_submit (w : PoolWork) :
    ordSubs [PEv.submit w] = if WT_UNORD < w.wtype then [w] else [] := by
  by_cases h : WT_UNORD < w.wtype <;> simp [ordSubs, h]

theorem poolInv_drainDispatch {s : PoolState} (hs : PoolInv s) (w : PoolWork)
    (o' u' : List PoolWork) (q' : Nat)
    (hnotbar : s.ordered.head?.map PoolWork.wtype ≠ some WT_BAR)
    (hpop : qos_pop s.qos s.ordered s.unordered = some (w, o', u', q')) :
    PoolInv { s with
      hist := s.hist ++ [PEv.dispatch w]
      ordered := o'
      unordered := u'
      qos := q'
      inqd := s.inqd ++ [w]
      in_flight := if WT_ORD1 ≤ w.wtype then s.in_flight + 1 else s.in_flight } := by
  have hfrfn : ∀ w' : PoolWork, PEv.dispatch w = PEv.submit w' →
      w'.wid ∉ (subsOf s.hist).map PoolWork.wid := fun w' he => absurd he (by simp)
  rcases qos_pop_cases hpop with ⟨ho, hu'⟩ | ⟨hu, ho'⟩
  · -- the planner popped the head of the ordered queue
    have hwmem : w ∈ s.ordered := by rw [ho]; exact List.mem_cons_self _ _
    have hwo : WT_UNORD < w.wtype := hs.typO w hwmem
    have hwnb : w.wtype ≠ WT_BAR := by
      intro hb
      apply hnotbar
      rw [ho]
      simp [hb]
    have hword : WT_ORD1 ≤ w.wtype := by
      simp only [WT_UNORD, WT_ORD1, WT_BAR] at hwo hwnb ⊢
      omega
    have hdisj := hs.ordered_disj hwmem
    refine
      { perm := ?_, nodupIds := ?_, typU := ?_, typO := ?_, noBar := ?_
        freedBar := ?_, iflt := ?_, aws := ?_, osuf := ?_, inqSub := ?_
        nodupDisp := ?_, tidEq := ?_, hDisp := ?_, hStart := ?_, hFin := ?_
        hAfter := ?_, hCons := ?_
        dispOrd := dispOrd_preserve hs _ hfrfn ?_
        c1a := c1a_preserve hs _ hfrfn (fun B he => by simp at he)
        c1u := c1u_preserve hs _ hfrfn (fun B he => by simp at he)
        c1d := c1d_preserve hs _ hfrfn (fun B he => by simp at he)
        c1b := c1b_preserve hs _ hfrfn (fun w2 he => by simp at he)
        c2o := c2o_preserve hs _ hfrfn (fun w2 he => by simp at he) }
    · refine perm_of_ms ?_
      have hp := Multiset.coe_eq_coe.mpr hs.perm
      rw [places, ho] at hp
      rw [hu']
      simp only [places, subsOf_append, subsOf_dispatch, List.append_nil,
        ← Multiset.coe_add, ← Multiset.cons_coe, ← Multiset.singleton_add,
        Multiset.coe_singleton] at hp ⊢
      rw [← hp]
      abel
    · simpa using hs.nodupIds
    · rw [hu']
      exact hs.typU
    · intro x hx
      exact hs.typO x (by rw [ho]; exact List.mem_cons_of_mem _ hx)
    · intro x hx
      rcases hx with hx | hx | hx | hx
      · rcases List.mem_append.mp hx with hx | hx
        · exact hs.noBar x (Or.inl hx)
        · rw [List.mem_singleton] at hx
          subst hx
          exact hwnb
      · exact hs.noBar x (Or.inr (Or.inl hx))
      · exact hs.noBar x (Or.inr (Or.inr (Or.inl hx)))
      · exact hs.noBar x (Or.inr (Or.inr (Or.inr hx)))
    · exact hs.freedBar
    · rw [if_pos hword, hs.iflt]
      simp [List.countP_append, decide_eq_true hword]
      all_goals omega
    · rw [hs.aws, ho, hu']
      simp [List.countP_append, List.countP_cons]
      all_goals omega
    · obtain ⟨t0, ht0⟩ := hs.osuf
      refine ⟨t0 ++ [w], ?_⟩
      simp only [ordSubs_append, ordSubs_dispatch, List.append_nil]
      rw [List.append_assoc, List.singleton_append, ← ho]
      exact ht0
    · simp only [dispOf_append, dispOf_dispatch]
      exact hs.inqSub.append (List.Sublist.refl _)
    · simp only [dispOf_append, dispOf_dispatch]
      refine List.Nodup.append hs.nodupDisp (List.nodup_singleton _) ?_
      intro a ha hb
      rw [List.mem_singleton] at hb
      subst hb
      rcases (hs.hDisp a).mp (mem_dispOf.mp ha) with h | h | h | h
      · exact hdisj.2.1 h
      · exact hdisj.2.2.1 h
      · exact hdisj.2.2.2.1 h
      · exact hdisj.2.2.2.2.1 h
    · intro x hx
      exact hs.tidEq x (by simpa using hx)
    · intro x
      simp only [List.mem_append, List.mem_singleton, PEv.dispatch.injEq, hs.hDisp x]
      tauto
    · intro x
      rw [List.mem_append, hs.hStart x]
      simp
    · intro x
      rw [List.mem_append, hs.hFin x]
      simp
    · intro x
      rw [List.mem_append, hs.hAfter x]
      simp
    · intro x
      rw [List.mem_append, hs.hCons x]
      simp
    · intro w2 he hw2 w1 hw1 hlb
      have hww : w2 = w := by
        injection he.symm
      subst hww
      exact hs.dispatch_core ho hw2 w1 hw1 hlb
  · -- the planner popped the head of the unordered queue
    have hwmem : w ∈ s.unordered := by rw [hu]; exact List.mem_cons_self _ _
    have hw0 : w.wtype = WT_UNORD := hs.typU w hwmem
    have hwnb : w.wtype ≠ WT_BAR := by rw [hw0]; decide
    have hnword : ¬ WT_ORD1 ≤ w.wtype := by rw [hw0]; decide
    have hdisj := hs.unordered_disj hwmem
    refine
      { perm := ?_, nodupIds := ?_, typU := ?_, typO := ?_, noBar := ?_
        freedBar := ?_, iflt := ?_, aws := ?_, osuf := ?_, inqSub := ?_
        nodupDisp := ?_, tidEq := ?_, hDisp := ?_, hStart := ?_, hFin := ?_
        hAfter := ?_, hCons := ?_
        dispOrd := dispOrd_preserve hs _ hfrfn ?_
        c1a := c1a_preserve hs _ hfrfn (fun B he => by simp at he)
        c1u := c1u_preserve hs _ hfrfn (fun B he => by simp at he)
        c1d := c1d_preserve hs _ hfrfn (fun B he => by simp at he)
        c1b := c1b_preserve hs _ hfrfn (fun w2 he => by simp at he)
        c2o := c2o_preserve hs _ hfrfn (fun w2 he => by simp at he) }
    · refine perm_of_ms ?_
      have hp := Multiset.coe_eq_coe.mpr hs.perm
      rw [places, hu] at hp
      rw [ho']
      simp only [places, subsOf_append, subsOf_dispatch, List.append_nil,
        ← Multiset.coe_add, ← Multiset.cons_coe, ← Multiset.singleton_add,
        Multiset.coe_singleton] at hp ⊢
      rw [← hp]
      abel
    · simpa using hs.nodupIds
    · intro x hx
      exact hs.typU x (by rw [hu]; exact List.mem_cons_of_mem _ hx)
    · rw [ho']
      exact hs.typO
    · intro x hx
      rcases hx with hx | hx | hx | hx
      · rcases List.mem_append.mp hx with hx | hx
        · exact hs.noBar x (Or.inl hx)
        · rw [List.mem_singleton] at hx
          subst hx
          exact hwnb
      · exact hs.noBar x (Or.inr (Or.inl hx))
      · exact hs.noBar x (Or.inr (Or.inr (Or.inl hx)))
      · exact hs.noBar x (Or.inr (Or.inr (Or.inr hx)))
    · exact hs.freedBar
    · rw [if_neg hnword, hs.iflt]
      simp only [List.countP_append, List.countP_cons]
      have : ¬ (decide (WT_ORD1 ≤ w.wtype) = true) := by
        rw [hw0]; decide
      simp [this]
    · rw [hs.aws, hu, ho']
      simp [List.countP_append, List.countP_cons]
      all_goals omega
    · rw [ho']
      obtain ⟨t0, ht0⟩ := hs.osuf
      exact ⟨t0, by simpa using ht0⟩
    · simp only [dispOf_append, dispOf_dispatch]
      exact hs.inqSub.append (List.Sublist.refl _)
    · simp only [dispOf_append, dispOf_dispatch]
      refine List.Nodup.append hs.nodupDisp (List.nodup_singleton _) ?_
      intro a ha hb
      rw [List.mem_singleton] at hb
      subst hb
      rcases (hs.hDisp a).mp (mem_dispOf.mp ha) with h | h | h | h
      · exact hdisj.2.1 h
      · exact hdisj.2.2.1 h
      · exact hdisj.2.2.2.1 h
      · exact hdisj.2.2.2.2.1 h
    · intro x hx
      exact hs.tidEq x (by simpa using hx)
    · intro x
      simp only [List.mem_append, List.mem_singleton, PEv.dispatch.injEq, hs.hDisp x]
      tauto
    · intro x
      rw [List.mem_append, hs.hStart x]
      simp
    · intro x
      rw [List.mem_append, hs.hFin x]
      simp
    · intro x
      rw [List.mem_append, hs.hAfter x]
      simp
    · intro x
      rw [List.mem_append, hs.hCons x]
      simp
    · intro w2 he hw2 w1 hw1 hlb
      have hww : w2 = w := by
        injection he.symm
      subst hww
      rw [hw0] at hw2
      exact absurd hw2 (by decide)

theorem poolInv_unordDispatch {s : PoolState} (hs : PoolInv s) (w : PoolWork)
    (rest : List PoolWork) (hu : s.unordered = w :: rest) :
    PoolInv { s with
      hist := s.hist ++ [PEv.dispatch w]
      unordered := rest
      inqd := s.inqd ++ [w] } := by
  have hfrfn : ∀ w' : PoolWork, PEv.dispatch w = PEv.submit w' →
      w'.wid ∉ (subsOf s.hist).map PoolWork.wid := fun w' he => absurd he (by simp)
  have hwmem : w ∈ s.unordered := by rw [hu]; exact List.mem_cons_self _ _
  have hw0 : w.wtype = WT_UNORD := hs.typU w hwmem
  have hwnb : w.wtype ≠ WT_BAR := by rw [hw0]; decide
  have hdisj := hs.unordered_disj hwmem
  refine
    { perm := ?_, nodupIds := ?_, typU := ?_, typO := ?_, noBar := ?_
      freedBar := ?_, iflt := ?_, aws := ?_, osuf := ?_, inqSub := ?_
      nodupDisp := ?_, tidEq := ?_, hDisp := ?_, hStart := ?_, hFin := ?_
      hAfter := ?_, hCons := ?_
      dispOrd := dispOrd_preserve hs _ hfrfn ?_
      c1a := c1a_preserve hs _ hfrfn (fun B he => by simp at he)
      c1u := c1u_preserve hs _ hfrfn (fun B he => by simp at he)
      c1d := c1d_preserve hs _ hfrfn (fun B he => by simp at he)
      c1b := c1b_preserve hs _ hfrfn (fun w2 he => by simp at he)
      c2o := c2o_preserve hs _ hfrfn (fun w2 he => by simp at he) }
  · refine perm_of_ms ?_
    have hp := Multiset.coe_eq_coe.mpr hs.perm
    rw [places, hu] at hp
    simp only [places, subsOf_append, subsOf_dispatch, List.append_nil,
      ← Multiset.coe_add, ← Multiset.cons_coe, ← Multiset.singleton_add,
      Multiset.coe_singleton] at hp ⊢
    rw [← hp]
    abel
  · simpa using hs.nodupIds
  · intro x hx
    exact hs.typU x (by rw [hu]; exact List.mem_cons_of_mem _ hx)
  · exact hs.typO
  · intro x hx
    rcases hx with hx | hx | hx | hx
    · rcases List.mem_append.mp hx with hx | hx
      · exact hs.noBar x (Or.inl hx)
      · rw [List.mem_singleton] at hx
        subst hx
        exact hwnb
    · exact hs.noBar x (Or.inr (Or.inl hx))
    · exact hs.noBar x (Or.inr (Or.inr (Or.inl hx)))
    · exact hs.noBar x (Or.inr (Or.inr (Or.inr hx)))
  · exact hs.freedBar
  · rw [hs.iflt]
    simp only [List.countP_append, List.countP_cons]
    have : ¬ (decide (WT_ORD1 ≤ w.wtype) = true) := by
      rw [hw0]; decide
    simp [this]
  · rw [hs.aws, hu]
    simp [List.countP_append, List.countP_cons]
    all_goals omega
  · obtain ⟨t0, ht0⟩ := hs.osuf
    exact ⟨t0, by simpa using ht0⟩
  · simp only [dispOf_append, dispOf_dispatch]
    exact hs.inqSub.append (List.Sublist.refl _)
  · simp only [dispOf_append, dispOf_dispatch]
    refine List.Nodup.append hs.nodupDisp (List.nodup_singleton _) ?_
    intro a ha hb
    rw [List.mem_singleton] at hb
    subst hb
    rcases (hs.hDisp a).mp (mem_dispOf.mp ha) with h | h | h | h
    · exact hdisj.2.1 h
    · exact hdisj.2.2.1 h
    · exact hdisj.2.2.2.1 h
    · exact hdisj.2.2.2.2.1 h
  · intro x hx
    exact hs.tidEq x (by simpa using hx)
  · intro x
    simp only [List.mem_append, List.mem_singleton, PEv.dispatch.injEq, hs.hDisp x]
    tauto
  · intro x
    rw [List.mem_append, hs.hStart x]
    simp
  · intro x
    rw [List.mem_append, hs.hFin x]
    simp
  · intro x
    rw [List.mem_append, hs.hAfter x]
    simp
  · intro x
    rw [List.mem_append, hs.hCons x]
    simp
  · intro w2 he hw2 w1 hw1 hlb
    have hww : w2 = w := by
      injection he.symm
    subst hww
    rw [hw0] at hw2
    exact absurd hw2 (by decide)

theorem poolInv_barrierConsume {s : PoolState} (hs : PoolInv s) (w : PoolWork)
    (rest : List PoolWork) (hu : s.unordered = []) (hif : s.in_flight = 0)
    (ho : s.ordered = w :: rest) (hbar : w.wtype = WT_BAR) :
    PoolInv { s with
      hist := s.hist ++ [PEv.consume w]
      ordered := rest
      freed := s.freed ++ [w]
      pstate := PS.DRAINING } := by
  have hfrfn : ∀ w' : PoolWork, PEv.consume w = PEv.submit w' →
      w'.wid ∉ (subsOf s.hist).map PoolWork.wid := fun w' he => absurd he (by simp)
  have hcore := hs.consume_core hu hif ho hbar
  refine
    { perm := ?_, nodupIds := ?_, typU := ?_, typO := ?_, noBar := ?_
      freedBar := ?_, iflt := ?_, aws := ?_, osuf := ?_, inqSub := ?_
      nodupDisp := ?_, tidEq := ?_, hDisp := ?_, hStart := ?_, hFin := ?_
      hAfter := ?_, hCons := ?_
      dispOrd := dispOrd_preserve hs _ hfrfn (fun w2 he => by simp at he)
      c1a := c1a_preserve hs _ hfrfn ?_
      c1u := c1u_preserve hs _ hfrfn ?_
      c1d := c1d_preserve hs _ hfrfn ?_
      c1b := c1b_preserve hs _ hfrfn (fun w2 he => by simp at he)
      c2o := c2o_preserve hs _ hfrfn (fun w2 he => by simp at he) }
  · refine perm_of_ms ?_
    have hp := Multiset.coe_eq_coe.mpr hs.perm
    rw [places, ho] at hp
    simp only [places, subsOf_append, subsOf_consume, List.append_nil,
      ← Multiset.coe_add, ← Multiset.cons_coe, ← Multiset.singleton_add,
      Multiset.coe_singleton] at hp ⊢
    rw [← hp]
    abel
  · simpa using hs.nodupIds
  · exact hs.typU
  · intro x hx
    exact hs.typO x (by rw [ho]; exact List.mem_cons_of_mem _ hx)
  · exact hs.noBar
  · intro x hx
    rcases List.mem_append.mp hx with hx | hx
    · exact hs.freedBar x hx
    · rw [List.mem_singleton] at hx
      subst hx
      exact hbar
  · exact hs.iflt
  · rw [hs.aws, ho]
    simp only [List.countP_append, List.countP_cons]
    have hnb : ¬ ((fun x : PoolWork => !decide (x.wtype = WT_BAR)) w = true) := by
      simp [hbar]
    simp [hbar]
  · obtain ⟨t0, ht0⟩ := hs.osuf
    refine ⟨t0 ++ [w], ?_⟩
    simp only [ordSubs_append, ordSubs_consume, List.append_nil]
    rw [List.append_assoc, List.singleton_append, ← ho]
    exact ht0
  · simpa using hs.inqSub
  · simpa using hs.nodupDisp
  · intro x hx
    exact hs.tidEq x (by simpa using hx)
  · intro x
    rw [List.mem_append, hs.hDisp x]
    simp
  · intro x
    rw [List.mem_append, hs.hStart x]
    simp
  · intro x
    rw [List.mem_append, hs.hFin x]
    simp
  · intro x
    rw [List.mem_append, hs.hAfter x]
    simp
  · intro x
    simp only [List.mem_append, List.mem_singleton, PEv.consume.injEq, hs.hCons x]
  · intro B he hB w1 hw1 hlb
    have hBw : B = w := by injection he.symm
    subst hBw
    exact hcore.1 w1 hw1 hlb
  · intro B he hB w1 hw1 hlb
    have hBw : B = w := by injection he.symm
    subst hBw
    exact hcore.2.1 w1 hw1 hlb.mem_left
  · intro B he hB B0 hB0 hlb
    have hBw : B = w := by injection he.symm
    subst hBw
    exact hcore.2.2 B0 hB0 hlb

theorem poolInv_workerStart {s : PoolState} (hs : PoolInv s) (w : PoolWork)
    (pre post : List PoolWork) (hq : s.inqd = pre ++ w :: post)
    (hpre : ∀ x ∈ pre, x.thread_id ≠ w.thread_id) :
    PoolInv { s with
      hist := s.hist ++ [PEv.start w]
      inqd := pre ++ post
      runningl := s.runningl ++ [w] } := by
  have hfrfn : ∀ w' : PoolWork, PEv.start w = PEv.submit w' →
      w'.wid ∉ (subsOf s.hist).map PoolWork.wid := fun w' he => absurd he (by simp)
  have hcore := hs.start_core hq hpre
  have hsubq : ∀ x, x ∈ pre ++ post → x ∈ s.inqd := by
    intro x hx
    rw [hq]
    rcases List.mem_append.mp hx with hx | hx
    · exact List.mem_append_left _ hx
    · exact List.mem_append_right _ (List.mem_cons_of_mem _ hx)
  have hwin : w ∈ s.inqd := by
    rw [hq]; exact List.mem_append_right _ (List.mem_cons_self _ _)
  refine
    { perm := ?_, nodupIds := ?_, typU := ?_, typO := ?_, noBar := ?_
      freedBar := ?_, iflt := ?_, aws := ?_, osuf := ?_, inqSub := ?_
      nodupDisp := ?_, tidEq := ?_, hDisp := ?_, hStart := ?_, hFin := ?_
      hAfter := ?_, hCons := ?_
      dispOrd := dispOrd_preserve hs _ hfrfn (fun w2 he => by simp at he)
      c1a := c1a_preserve hs _ hfrfn (fun B he => by simp at he)
      c1u := c1u_preserve hs _ hfrfn (fun B he => by simp at he)
      c1d := c1d_preserve hs _ hfrfn (fun B he => by simp at he)
      c1b := c1b_preserve hs _ hfrfn ?_
      c2o := c2o_preserve hs _ hfrfn ?_ }
  · refine perm_of_ms ?_
    have hp := Multiset.coe_eq_coe.mpr hs.perm
    rw [places, hq] at hp
    simp only [places, subsOf_append, subsOf_start, List.append_nil,
      ← Multiset.coe_add, ← Multiset.cons_coe, ← Multiset.singleton_add,
      Multiset.coe_singleton] at hp ⊢
    rw [← hp]
    abel
  · simpa using hs.nodupIds
  · exact hs.typU
  · exact hs.typO
  · intro x hx
    rcases hx with hx | hx | hx | hx
    · exact hs.noBar x (Or.inl (hsubq x hx))
    · rcases List.mem_append.mp hx with hx | hx
      · exact hs.noBar x (Or.inr (Or.inl hx))
      · rw [List.mem_singleton] at hx
        subst hx
        exact hs.noBar x (Or.inl hwin)
    · exact hs.noBar x (Or.inr (Or.inr (Or.inl hx)))
    · exact hs.noBar x (Or.inr (Or.inr (Or.inr hx)))
  · exact hs.freedBar
  · rw [hs.iflt, hq]
    simp [List.countP_append, List.countP_cons]
    all_goals omega
  · rw [hs.aws, hq]
    simp [List.countP_append, List.countP_cons]
    all_goals omega
  · obtain ⟨t0, ht0⟩ := hs.osuf
    exact ⟨t0, by simpa using ht0⟩
  · have h1 : (pre ++ post).Sublist (pre ++ w :: post) :=
      (List.Sublist.refl pre).append ((List.Sublist.refl post).cons w)
    have h2 : s.inqd.Sublist (dispOf s.hist) := hs.inqSub
    rw [hq] at h2
    simpa using h1.trans h2
  · simpa using hs.nodupDisp
  · intro x hx
    exact hs.tidEq x (by simpa using hx)
  · intro x
    rw [List.mem_append, hs.hDisp x, hq]
    simp only [List.mem_append, List.mem_cons, List.mem_singleton]
    constructor
    · rintro (h | h)
      · tauto
      · simp at h
    · intro h
      left
      tauto
  · intro x
    rw [List.mem_append, hs.hStart x]
    simp only [List.mem_append, List.mem_singleton, PEv.start.injEq]
    tauto
  · intro x
    rw [List.mem_append, hs.hFin x]
    simp
  · intro x
    rw [List.mem_append, hs.hAfter x]
    simp
  · intro x
    rw [List.mem_append, hs.hCons x]
    simp
  · intro w2 he hw2 B hB hlb
    have hww : w2 = w := by injection he.symm
    subst hww
    exact hcore.1 B hB hw2 hlb
  · intro w2 he hw2 w1 hw1 htid hlb
    have hww : w2 = w := by injection he.symm
    subst hww
    exact hcore.2 w1 hw1 hw2 htid hlb

theorem poolInv_workerFinish {s : PoolState} (hs : PoolInv s) (w : PoolWork)
    (pre post : List PoolWork) (hr : s.runningl = pre ++ w :: post) :
    PoolInv { s with
      hist := s.hist ++ [PEv.finish w]
      runningl := pre ++ post
      outq := s.outq ++ [w]
      in_flight := if WT_BAR < w.wtype then s.in_flight - 1 else s.in_flight } := by
  have hfrfn : ∀ w' : PoolWork, PEv.finish w = PEv.submit w' →
      w'.wid ∉ (subsOf s.hist).map PoolWork.wid := fun w' he => absurd he (by simp)
  have hsubq : ∀ x, x ∈ pre ++ post → x ∈ s.runningl := by
    intro x hx
    rw [hr]
    rcases List.mem_append.mp hx with hx | hx
    · exact List.mem_append_left _ hx
    · exact List.mem_append_right _ (List.mem_cons_of_mem _ hx)
  have hwin : w ∈ s.runningl := by
    rw [hr]; exact List.mem_append_right _ (List.mem_cons_self _ _)
  refine
    { perm := ?_, nodupIds := ?_, typU := ?_, typO := ?_, noBar := ?_
      freedBar := ?_, iflt := ?_, aws := ?_, osuf := ?_, inqSub := ?_
      nodupDisp := ?_, tidEq := ?_, hDisp := ?_, hStart := ?_, hFin := ?_
      hAfter := ?_, hCons := ?_
      dispOrd := dispOrd_preserve hs _ hfrfn (fun w2 he => by simp at he)
      c1a := c1a_preserve hs _ hfrfn (fun B he => by simp at he)
      c1u := c1u_preserve hs _ hfrfn (fun B he => by simp at he)
      c1d := c1d_preserve hs _ hfrfn (fun B he => by simp at he)
      c1b := c1b_preserve hs _ hfrfn (fun w2 he => by simp at he)
      c2o := c2o_preserve hs _ hfrfn (fun w2 he => by simp at he) }
  · refine perm_of_ms ?_
    have hp := Multiset.coe_eq_coe.mpr hs.perm
    rw [places, hr] at hp
    simp only [places, subsOf_append, subsOf_finish, List.append_nil,
      ← Multiset.coe_add, ← Multiset.cons_coe, ← Multiset.singleton_add,
      Multiset.coe_singleton] at hp ⊢
    rw [← hp]
    abel
  · simpa using hs.nodupIds
  · exact hs.typU
  · exact hs.typO
  · intro x hx
    rcases hx with hx | hx | hx | hx
    · exact hs.noBar x (Or.inl hx)
    · exact hs.noBar x (Or.inr (Or.inl (hsubq x hx)))
    · rcases List.mem_append.mp hx with hx | hx
      · exact hs.noBar x (Or.inr (Or.inr (Or.inl hx)))
      · rw [List.mem_singleton] at hx
        subst hx
        exact hs.noBar x (Or.inr (Or.inl hwin))
    · exact hs.noBar x (Or.inr (Or.inr (Or.inr hx)))
  · exact hs.freedBar
  · rw [hs.iflt, hr]
    by_cases hbw : WT_BAR < w.wtype
    · rw [if_pos hbw]
      have hp : decide (WT_ORD1 ≤ w.wtype) = true := by
        simp only [decide_eq_true_eq, WT_ORD1]
        simp only [WT_BAR] at hbw
        omega
      simp [List.countP_append, List.countP_cons, hp]
      all_goals omega
    · rw [if_neg hbw]
      have hp : ¬ (decide (WT_ORD1 ≤ w.wtype) = true) := by
        simp only [decide_eq_true_eq, WT_ORD1]
        simp only [WT_BAR] at hbw
        omega
      simp [List.countP_append, List.countP_cons, hp]
  · rw [hs.aws, hr]
    simp [List.countP_append, List.countP_cons]
    all_goals omega
  · obtain ⟨t0, ht0⟩ := hs.osuf
    exact ⟨t0, by simpa using ht0⟩
  · simpa using hs.inqSub
  · simpa using hs.nodupDisp
  · intro x hx
    exact hs.tidEq x (by simpa using hx)
  · intro x
    rw [List.mem_append, hs.hDisp x, hr]
    simp only [List.mem_append, List.mem_cons, List.mem_singleton]
    constructor
    · rintro (h | h)
      · tauto
      · simp at h
    · intro h
      left
      tauto
  · intro x
    rw [List.mem_append, hs.hStart x, hr]
    simp only [List.mem_append, List.mem_cons, List.mem_singleton]
    constructor
    · rintro (h | h)
      · tauto
      · simp at h
    · intro h
      left
      tauto
  · intro x
    rw [List.mem_append, hs.hFin x]
    simp only [List.mem_append, List.mem_singleton, PEv.finish.injEq]
    tauto
  · intro x
    rw [List.mem_append, hs.hAfter x]
    simp
  · intro x
    rw [List.mem_append, hs.hCons x]
    simp

theorem poolInv_loopDone {s : PoolState} (hs : PoolInv s) (w : PoolWork)
    (rest : List PoolWork) (ho : s.outq = w :: rest) :
    PoolInv { s with
      hist := s.hist ++ [PEv.after w]
      outq := rest
      doneq := s.doneq ++ [w]
      active_ws := s.active_ws - 1 } := by
  have hfrfn : ∀ w' : PoolWork, PEv.after w = PEv.submit w' →
      w'.wid ∉ (subsOf s.hist).map PoolWork.wid := fun w' he => absurd he (by simp)
  have hwin : w ∈ s.outq := by rw [ho]; exact List.mem_cons_self _ _
  refine
    { perm := ?_, nodupIds := ?_, typU := ?_, typO := ?_, noBar := ?_
      freedBar := ?_, iflt := ?_, aws := ?_, osuf := ?_, inqSub := ?_
      nodupDisp := ?_, tidEq := ?_, hDisp := ?_, hStart := ?_, hFin := ?_
      hAfter := ?_, hCons := ?_
      dispOrd := dispOrd_preserve hs _ hfrfn (fun w2 he => by simp at he)
      c1a := c1a_preserve hs _ hfrfn (fun B he => by simp at he)
      c1u := c1u_preserve hs _ hfrfn (fun B he => by simp at he)
      c1d := c1d_preserve hs _ hfrfn (fun B he => by simp at he)
      c1b := c1b_preserve hs _ hfrfn (fun w2 he => by simp at he)
      c2o := c2o_preserve hs _ hfrfn (fun w2 he => by simp at he) }
  · refine perm_of_ms ?_
    have hp := Multiset.coe_eq_coe.mpr hs.perm
    rw [places, ho] at hp
    simp only [places, subsOf_append, subsOf_after, List.append_nil,
      ← Multiset.coe_add, ← Multiset.cons_coe, ← Multiset.singleton_add,
      Multiset.coe_singleton] at hp ⊢
    rw [← hp]
    abel
  · simpa using hs.nodupIds
  · exact hs.typU
  · exact hs.typO
  · intro x hx
    rcases hx with hx | hx | hx | hx
    · exact hs.noBar x (Or.inl hx)
    · exact hs.noBar x (Or.inr (Or.inl hx))
    · exact hs.noBar x (Or.inr (Or.inr (Or.inl (by rw [ho]; exact List.mem_cons_of_mem _ hx))))
    · rcases List.mem_append.mp hx with hx | hx
      · exact hs.noBar x (Or.inr (Or.inr (Or.inr hx)))
      · rw [List.mem_singleton] at hx
        subst hx
        exact hs.noBar x (Or.inr (Or.inr (Or.inl hwin)))
  · exact hs.freedBar
  · exact hs.iflt
  · have hnb : w.wtype ≠ WT_BAR := hs.noBar w (Or.inr (Or.inr (Or.inl hwin)))
    rw [hs.aws, ho]
    simp [List.countP_append, List.countP_cons, hnb]
    all_goals omega
  · obtain ⟨t0, ht0⟩ := hs.osuf
    exact ⟨t0, by simpa using ht0⟩
  · simpa using hs.inqSub
  · simpa using hs.nodupDisp
  · intro x hx
    exact hs.tidEq x (by simpa using hx)
  · intro x
    rw [List.mem_append, hs.hDisp x, ho]
    simp only [List.mem_append, List.mem_cons, List.mem_singleton]
    constructor
    · rintro (h | h)
      · tauto
      · simp at h
    · intro h
      left
      tauto
  · intro x
    rw [List.mem_append, hs.hStart x, ho]
    simp only [List.mem_append, List.mem_cons, List.mem_singleton]
    constructor
    · rintro (h | h)
      · tauto
      · simp at h
    · intro h
      left
      tauto
  · intro x
    rw [List.mem_append, hs.hFin x, ho]
    simp only [List.mem_append, List.mem_cons, List.mem_singleton]
    constructor
    · rintro (h | h)
      · tauto
      · simp at h
    · intro h
      left
      tauto
  · intro x
    rw [List.mem_append, hs.hAfter x]
    simp only [List.mem_append, List.mem_singleton, PEv.after.injEq]
  · intro x
    rw [List.mem_append, hs.hCons x]
    simp

/-- Every transition preserves the invariant. -/
theorem poolInv_step {s s' : PoolState} (hs : PoolInv s) (hstep : PStep s s') :
    PoolInv s' := by
  cases hstep with
  | submit idn t c hfresh hpre => exact poolInv_submit hs idn t c hfresh hpre
  | nothingToDraining hps hex hne => exact poolInv_pstate hs _
  | nothingToExited hps hex => exact poolInv_pstate hs _
  | drainDispatch w o' u' q' hps hnotbar hpop =>
    exact poolInv_drainDispatch hs w o' u' q' hnotbar hpop
  | drainToBarrier w rest hps ho hbar => exact poolInv_pstate hs _
  | drainToNothing hps ho hu => exact poolInv_pstate hs _
  | barrierToUnord hps hu => exact poolInv_pstate hs _
  | barrierConsume w rest hps hu hif ho hbar =>
    exact poolInv_barrierConsume hs w rest hu hif ho hbar
  | unordDispatch w rest hps hu => exact poolInv_unordDispatch hs w rest hu
  | unordToBarrier hps hu => exact poolInv_pstate hs _
  | workerStart w pre post hq hpre => exact poolInv_workerStart hs w pre post hq hpre
  | workerFinish w pre post hr => exact poolInv_workerFinish hs w pre post hr
  | loopDone w rest ho => exact poolInv_loopDone hs w rest ho
  | beginExit => exact poolInv_exiting hs

/-- Every reachable state satisfies the invariant. -/
theorem reach_poolInv {n : Nat} {s : PoolState} (h : Reach n s) : PoolInv s := by
  induction h with
  | init => exact poolInv_init n
  | step _ hstep ih => exact poolInv_step ih hstep

/-- The thread count never changes. -/
theorem reach_nthreads {n : Nat} {s : PoolState} (h : Reach n s) : s.nthreads = n := by
  induction h with
  | init => rfl
  | step _ hstep ih => cases hstep <;> exact ih

/-- The planner leaves BARRIER for DRAINING only by consuming the BAR, which
requires `in_flight = 0` and an empty unordered queue. -/
theorem barrier_release {s s' : PoolState} (hstep : PStep s s')
    (hb : s.pstate = PS.BARRIER) (hd : s'.pstate = PS.DRAINING) :
    s.in_flight = 0 ∧ s.unordered = [] := by
  cases hstep <;> simp_all

theorem c1state_reach : Reach 1 c1state := by
  have r0 : Reach 1 (initPool 1) := Reach.init
  have r1 := Reach.step r0 (PStep.submit 0 0 0 (by decide) (by decide))
  have r2 := Reach.step r1 (PStep.submit 1 1 0 (by decide) (by decide))
  have r3 := Reach.step r2 (PStep.nothingToDraining (by decide) (by decide) (by decide))
  have r4 := Reach.step r3
    (PStep.drainToBarrier ⟨1, 1, 0, 0⟩ [] (by decide) (by decide) (by decide))
  have r5 := Reach.step r4 (PStep.barrierToUnord (by decide) (by decide))
  have r6 := Reach.step r5 (PStep.unordDispatch ⟨0, 0, 0, 0⟩ [] (by decide) (by decide))
  have r7 := Reach.step r6 (PStep.unordToBarrier (by decide) (by decide))
  have r8 := Reach.step r7
    (PStep.barrierConsume ⟨1, 1, 0, 0⟩ [] (by decide) (by decide) (by decide)
      (by decide) (by decide))
  exact r8

theorem c2cexstate_reach : Reach 2 c2cexstate := by
  have r0 : Reach 2 (initPool 2) := Reach.init
  have r1 := Reach.step r0 (PStep.submit 0 2 0 (by decide) (by decide))
  have r2 := Reach.step r1 (PStep.submit 1 2 1 (by decide) (by decide))
  have r3 := Reach.step r2 (PStep.nothingToDraining (by decide) (by decide) (by decide))
  have r4 := Reach.step r3
    (PStep.drainDispatch ⟨0, 2, 0, 0⟩ [⟨1, 2, 1, 1⟩] [] 0 (by decide) (by decide)
      (by decide))
  have r5 := Reach.step r4
    (PStep.drainDispatch ⟨1, 2, 1, 1⟩ [] [] 0 (by decide) (by decide) (by decide))
  have r6 := Reach.step r5
    (PStep.workerStart ⟨1, 2, 1, 1⟩ [⟨0, 2, 0, 0⟩] [] (by decide) (by decide))
  exact r6

theorem c2state_reach : Reach 1 c2state := by
  have r0 : Reach 1 (initPool 1) := Reach.init
  have r1 := Reach.step r0 (PStep.submit 0 2 0 (by decide) (by decide))
  have r2 := Reach.step r1 (PStep.submit 1 2 0 (by decide) (by decide))
  have r3 := Reach.step r2 (PStep.nothingToDraining (by decide) (by decide) (by decide))
  have r4 := Reach.step r3
    (PStep.drainDispatch ⟨0, 2, 0, 0⟩ [⟨1, 2, 0, 0⟩] [] 0 (by decide) (by decide)
      (by decide))
  have r5 := Reach.step r4
    (PStep.drainDispatch ⟨1, 2, 0, 0⟩ [] [] 0 (by decide) (by decide) (by decide))
  have r6 := Reach.step r5
    (PStep.workerStart ⟨0, 2, 0, 0⟩ [] [⟨1, 2, 0, 0⟩] (by decide) (by decide))
  have r7 := Reach.step r6
    (PStep.workerStart ⟨1, 2, 0, 0⟩ [] [] (by decide) (by decide))
  exact r7

theorem c3state_reach : Reach 1 c3state := by
  have r0 : Reach 1 (initPool 1) := Reach.init
  have r1 := Reach.step r0 (PStep.submit 0 2 0 (by decide) (by decide))
  have r2 := Reach.step r1 (PStep.nothingToDraining (by decide) (by decide) (by decide))
  have r3 := Reach.step r2
    (PStep.drainDispatch ⟨0, 2, 0, 0⟩ [] [] 0 (by decide) (by decide) (by decide))
  have r4 := Reach.step r3 (PStep.drainToNothing (by decide) (by decide) (by decide))
  exact r4

theorem c9state_reach : Reach 1 c9state := by
  have r0 : Reach 1 (initPool 1) := Reach.init
  have r1 := Reach.step r0 (PStep.submit 0 1 0 (by decide) (by decide))
  have r2 := Reach.step r1 (PStep.nothingToDraining (by decide) (by decide) (by decide))
  have r3 := Reach.step r2
    (PStep.drainToBarrier ⟨0, 1, 0, 0⟩ [] (by decide) (by decide) (by decide))
  have r4 := Reach.step r3
    (PStep.barrierConsume ⟨0, 1, 0, 0⟩ [] (by decide) (by decide) (by decide)
      (by decide) (by decide))
  exact r4

/-- Claim C1, counterexample: the claim as stated is false for a pool with one
worker.  In the reachable state `c1state`, the unordered item `⟨0,0,0,0⟩` was
submitted before the BAR `⟨1,1,0,0⟩` and the BAR has been consumed, yet the
unordered item's work callback has not finished (it has merely been dispatched
to its worker's inbox): the planner only waits for the unordered queue to be
drained to the inboxes, not for unordered items to complete. -/
theorem barrier_separation_cex : ¬ C1original 1 := by
  intro hclaim
  exact absurd
    ((hclaim c1state c1state_reach ⟨1, 1, 0, 0⟩ (by decide)).1 ⟨0, 0, 0, 0⟩
      (by decide) (by decide))
    (by decide)

/-- Claim C1 (amended): for every BAR item `B`, (a) every strictly ordered
item submitted before `B` finishes its work callback before the planner
consumes `B`; (b) every unordered item submitted before `B` is dispatched to
its worker (not necessarily completed) before `B` is consumed; (c) every
earlier BAR is consumed before `B` is consumed; (d) no ordered-class item
submitted after `B` begins execution before `B` is consumed (unordered items
submitted after `B` may begin earlier); and (e) the planner moves from BARRIER
to DRAINING only when `in_flight = 0` and the unordered queue is empty. -/
theorem barrier_separation_amended (n : Nat) (s : PoolState) (hr : Reach n s)
    (B : PoolWork) (hB : B.wtype = WT_BAR) :
    (∀ w1 : PoolWork, WT_ORD1 ≤ w1.wtype →
      listBefore (PEv.submit w1) (PEv.submit B) s.hist → PEv.consume B ∈ s.hist →
      listBefore (PEv.finish w1) (PEv.consume B) s.hist) ∧
    (∀ w1 : PoolWork, w1.wtype = WT_UNORD →
      listBefore (PEv.submit w1) (PEv.submit B) s.hist → PEv.consume B ∈ s.hist →
      listBefore (PEv.dispatch w1) (PEv.consume B) s.hist) ∧
    (∀ B0 : PoolWork, B0.wtype = WT_BAR →
      listBefore (PEv.submit B0) (PEv.submit B) s.hist → PEv.consume B ∈ s.hist →
      listBefore (PEv.consume B0) (PEv.consume B) s.hist) ∧
    (∀ w2 : PoolWork, WT_UNORD < w2.wtype →
      listBefore (PEv.submit B) (PEv.submit w2) s.hist → PEv.start w2 ∈ s.hist →
      listBefore (PEv.consume B) (PEv.start w2) s.hist) ∧
    (∀ s', s.pstate = PS.BARRIER → PStep s s' → s'.pstate = PS.DRAINING →
      s.in_flight = 0 ∧ s.unordered = []) := by
  have hi := reach_poolInv hr
  exact ⟨fun w1 h1 h2 h3 => hi.c1a B w1 hB h1 h2 h3,
    fun w1 h1 h2 h3 => hi.c1u B w1 hB h1 h2 h3,
    fun B0 h1 h2 h3 => hi.c1d B B0 hB h1 h2 h3,
    fun w2 h1 h2 h3 => hi.c1b B w2 hB h1 h2 h3,
    fun s' h1 h2 h3 => barrier_release h2 h1 h3⟩

/-- Witness for the amended claim C1 at the concrete reachable state
`c1state`: the unordered item submitted before the BAR was dispatched before
the BAR was consumed. -/
theorem barrier_separation_amended_witness :
    Reach 1 c1state ∧ (⟨1, 1, 0, 0⟩ : PoolWork).wtype = WT_BAR ∧
      (⟨0, 0, 0, 0⟩ : PoolWork).wtype = WT_UNORD ∧
      listBefore (PEv.submit ⟨0, 0, 0, 0⟩) (PEv.submit ⟨1, 1, 0, 0⟩) c1state.hist ∧
      PEv.consume ⟨1, 1, 0, 0⟩ ∈ c1state.hist ∧
      listBefore (PEv.dispatch ⟨0, 0, 0, 0⟩) (PEv.consume ⟨1, 1, 0, 0⟩) c1state.hist :=
  ⟨c1state_reach, rfl, rfl, by decide, by decide,
    (barrier_separation_amended 1 c1state c1state_reach ⟨1, 1, 0, 0⟩ rfl).2.1
      ⟨0, 0, 0, 0⟩ rfl (by decide) (by decide)⟩

/-- Claim C2, counterexample: the claim as stated is false for a pool with two
workers.  In the reachable state `c2cexstate`, two ORD1 items were submitted
with cookies 0 and 1, so they are assigned to different workers (cookie mod 2);
worker 1 starts the second item while the first, addressed to worker 0, has
not begun execution: same-class ordered items execute in submission order only
when they target the same worker. -/
theorem ordered_exec_order_cex : ¬ C2original 2 := by
  intro hclaim
  exact absurd
    ((hclaim c2cexstate c2cexstate_reach).1 ⟨0, 2, 0, 0⟩ ⟨1, 2, 1, 1⟩
      (by decide) (by decide) (by decide) (by decide))
    (by decide)

/-- Claim C2 (amended): the worker assigned to every submitted item is
`cookie mod N`, and two ordered items of the same class whose cookies agree
modulo `N` (hence addressed to the same worker) begin their work callbacks in
submission order. -/
theorem ordered_exec_order_amended (n : Nat) (s : PoolState) (hr : Reach n s) :
    (∀ w1 w2 : PoolWork, WT_ORD1 ≤ w1.wtype → w1.wtype = w2.wtype →
      w1.cookie % n = w2.cookie % n →
      listBefore (PEv.submit w1) (PEv.submit w2) s.hist → PEv.start w2 ∈ s.hist →
      listBefore (PEv.start w1) (PEv.start w2) s.hist) ∧
    (∀ w : PoolWork, PEv.submit w ∈ s.hist → w.thread_id = w.cookie % n) := by
  have hi := reach_poolInv hr
  have hn := reach_nthreads hr
  constructor
  · intro w1 w2 h1 h2 h3 hlb hst
    have ht1 : w1.thread_id = w1.cookie % n := by
      rw [← hn]
      exact hi.tidEq w1 (mem_subsOf.mpr hlb.mem_left)
    have ht2 : w2.thread_id = w2.cookie % n := by
      rw [← hn]
      exact hi.tidEq w2 (mem_subsOf.mpr hlb.mem_right)
    exact hi.c2o w1 w2 h1 (h2 ▸ h1) (by rw [ht1, ht2, h3]) hlb hst
  · intro w hw
    rw [← hn]
    exact hi.tidEq w (mem_subsOf.mpr hw)

/-- Witness for the amended claim C2 at the concrete reachable state
`c2state`: two ORD1 items with equal cookies start in submission order, and
their recorded worker index is cookie mod 1. -/
theorem ordered_exec_order_amended_witness :
    Reach 1 c2state ∧
      WT_ORD1 ≤ (⟨0, 2, 0, 0⟩ : PoolWork).wtype ∧
      (⟨0, 2, 0, 0⟩ : PoolWork).wtype = (⟨1, 2, 0, 0⟩ : PoolWork).wtype ∧
      (⟨0, 2, 0, 0⟩ : PoolWork).cookie % 1 = (⟨1, 2, 0, 0⟩ : PoolWork).cookie % 1 ∧
      listBefore (PEv.submit ⟨0, 2, 0, 0⟩) (PEv.submit ⟨1, 2, 0, 0⟩) c2state.hist ∧
      PEv.start ⟨1, 2, 0, 0⟩ ∈ c2state.hist ∧
      listBefore (PEv.start ⟨0, 2, 0, 0⟩) (PEv.start ⟨1, 2, 0, 0⟩) c2state.hist :=
  ⟨c2state_reach, by decide, rfl, rfl, by decide, by decide,
    (ordered_exec_order_amended 1 c2state c2state_reach).1 ⟨0, 2, 0, 0⟩ ⟨1, 2, 0, 0⟩
      (by decide) rfl rfl (by decide) (by decide)⟩

/-- Claim C3, counterexample: the claim as stated is false.  In the reachable
state `c3state` the planner is in NOTHING (both producer queues are empty)
while a dispatched ORD1 item is still in its worker's inbox, so
`in_flight = 1`.  The code's own `planner_invariant` checks only queue
emptiness in NOTHING, not `in_flight`. -/
theorem nothing_in_flight_cex : ¬ C3original 1 := by
  intro hclaim
  exact absurd (hclaim c3state c3state_reach (by decide)) (by decide)

/-- Claim C3 (amended): in every reachable state — in particular whenever the
planner is in NOTHING — `in_flight` equals the number of strictly ordered
items that have been dispatched to worker inboxes or are executing and that
their worker has not yet handed off to the completion queue (the
mutex-protected push-and-decrement after the work callback returns); this may
be nonzero in NOTHING. -/
theorem nothing_in_flight_amended (n : Nat) (s : PoolState) (hr : Reach n s) :
    s.in_flight =
      (s.inqd ++ s.runningl).countP fun w => decide (WT_ORD1 ≤ w.wtype) :=
  (reach_poolInv hr).iflt

/-- Witness for the amended claim C3 at the concrete reachable NOTHING state
`c3state`, where `in_flight = 1` counts the one pending ORD1 item. -/
theorem nothing_in_flight_amended_witness :
    Reach 1 c3state ∧
      c3state.in_flight =
        ((c3state.inqd ++ c3state.runningl).countP
          fun w => decide (WT_ORD1 ≤ w.wtype)) :=
  ⟨c3state_reach, nothing_in_flight_amended 1 c3state c3state_reach⟩

/-- Claim C9: a submitted BAR item lives only in the ordered queue until the
planner pops and frees it when the barrier is satisfied; its work callback is
never started by a worker, its after-work callback is never invoked on the
loop thread, it is consumed exactly when freed, and `active_ws` counts only
non-BAR items (`w_register` skips BARs), so ownership of a BAR item is never
returned to the producer. -/
theorem bar_items_planner_owned (n : Nat) (s : PoolState) (hr : Reach n s) :
    (∀ w : PoolWork, w.wtype = WT_BAR → PEv.submit w ∈ s.hist →
      ((w ∈ s.ordered ∨ w ∈ s.freed) ∧ PEv.start w ∉ s.hist ∧
        PEv.after w ∉ s.hist ∧ (PEv.consume w ∈ s.hist ↔ w ∈ s.freed))) ∧
    s.active_ws =
      (s.ordered ++ s.unordered ++ s.inqd ++ s.runningl ++ s.outq).countP
        (fun w => decide (w.wtype ≠ WT_BAR)) := by
  have hi := reach_poolInv hr
  refine ⟨?_, hi.aws⟩
  intro w hB hsub
  refine ⟨?_, ?_, ?_, hi.hCons w⟩
  · rcases hi.mem_subs_iff.mp (mem_subsOf.mpr hsub) with h | h | h | h | h | h | h
    · exact Or.inl h
    · have h1 := hi.typU w h
      rw [hB] at h1
      exact absurd h1 (by decide)
    · exact absurd hB (hi.noBar w (Or.inl h))
    · exact absurd hB (hi.noBar w (Or.inr (Or.inl h)))
    · exact absurd hB (hi.noBar w (Or.inr (Or.inr (Or.inl h))))
    · exact absurd hB (hi.noBar w (Or.inr (Or.inr (Or.inr h))))
    · exact Or.inr h
  · intro hc
    rcases (hi.hStart w).mp hc with h | h | h
    · exact hi.noBar w (Or.inr (Or.inl h)) hB
    · exact hi.noBar w (Or.inr (Or.inr (Or.inl h))) hB
    · exact hi.noBar w (Or.inr (Or.inr (Or.inr h))) hB
  · intro hc
    exact hi.noBar w (Or.inr (Or.inr (Or.inr ((hi.hAfter w).mp hc)))) hB

/-- Witness for claim C9 at the concrete reachable state `c9state`, where a
submitted BAR has been consumed and freed by the planner. -/
theorem bar_items_planner_owned_witness :
    Reach 1 c9state ∧ (⟨0, 1, 0, 0⟩ : PoolWork).wtype = WT_BAR ∧
      PEv.submit ⟨0, 1, 0, 0⟩ ∈ c9state.hist ∧
      ((⟨0, 1, 0, 0⟩ ∈ c9state.ordered ∨ ⟨0, 1, 0, 0⟩ ∈ c9state.freed) ∧
        PEv.start ⟨0, 1, 0, 0⟩ ∉ c9state.hist ∧
        PEv.after ⟨0, 1, 0, 0⟩ ∉ c9state.hist ∧
        (PEv.consume ⟨0, 1, 0, 0⟩ ∈ c9state.hist ↔ ⟨0, 1, 0, 0⟩ ∈ c9state.freed)) :=
  ⟨c9state_reach, rfl, by decide,
    (bar_items_planner_owned 1 c9state c9state_reach).1 ⟨0, 1, 0, 0⟩ rfl (by decide)⟩

/-- Claim C4: submitting a work item with an ordered type (`type > WT_UNORD`)
is possible only when `pool_work_submit`'s precondition
`ERGO(o_prev != BAR && new != BAR, o_prev == new)` holds against the
previously submitted ordered type (a violating call hits `PRE` and aborts, so
no transition of the model submits a violating item — the failure branch is
unreachable under the precondition); afterwards `o_prev` records the new
ordered type. -/
theorem submit_precondition_checked (s s' : PoolState) (w : PoolWork)
    (hstep : PStep s s') (hnew : PEv.submit w ∈ s'.hist)
    (hold : PEv.submit w ∉ s.hist) (hord : WT_UNORD < w.wtype) :
    (s.o_prev ≠ WT_BAR → w.wtype ≠ WT_BAR → s.o_prev = w.wtype) ∧
    s'.o_prev = w.wtype := by
  cases hstep with
  | submit idn t c hfresh hpre =>
    rcases List.mem_append.mp hnew with h | h
    · exact absurd h hold
    · rw [List.mem_singleton] at h
      have hw : w = ⟨idn, t, c, c % s.nthreads⟩ := by injection h
      subst hw
      exact ⟨fun h1 h2 => hpre hord ⟨h1, h2⟩, if_pos hord⟩
  | nothingToDraining hps hex hne => exact absurd hnew hold
  | nothingToExited hps hex => exact absurd hnew hold
  | drainDispatch w' o' u' q' hps hnotbar hpop =>
    rcases List.mem_append.mp hnew with h | h
    · exact absurd h hold
    · simp at h
  | drainToBarrier w' rest hps ho hbar => exact absurd hnew hold
  | drainToNothing hps ho hu => exact absurd hnew hold
  | barrierToUnord hps hu => exact absurd hnew hold
  | barrierConsume w' rest hps hu hif ho hbar =>
    rcases List.mem_append.mp hnew with h | h
    · exact absurd h hold
    · simp at h
  | unordDispatch w' rest hps hu =>
    rcases List.mem_append.mp hnew with h | h
    · exact absurd h hold
    · simp at h
  | unordToBarrier hps hu => exact absurd hnew hold
  | workerStart w' pre post hq hpre =>
    rcases List.mem_append.mp hnew with h | h
    · exact absurd h hold
    · simp at h
  | workerFinish w' pre post hr =>
    rcases List.mem_append.mp hnew with h | h
    · exact absurd h hold
    · simp at h
  | loopDone w' rest ho =>
    rcases List.mem_append.mp hnew with h | h
    · exact absurd h hold
    · simp at h
  | beginExit => exact absurd hnew hold

/-- Witness for claim C4: submitting an ORD1 item to the fresh pool (where
`o_prev = WT_BAR`) satisfies the precondition vacuously and sets `o_prev` to
the item's class. -/
theorem submit_precondition_checked_witness :
    PStep (initPool 1)
      { initPool 1 with
        hist := (initPool 1).hist ++ [PEv.submit ⟨0, 2, 0, (0 : Nat) % (initPool 1).nthreads⟩]
        ordered := if 2 = WT_UNORD then (initPool 1).ordered
                   else (initPool 1).ordered ++ [⟨0, 2, 0, (0 : Nat) % (initPool 1).nthreads⟩]
        unordered := if 2 = WT_UNORD then
                       (initPool 1).unordered ++ [⟨0, 2, 0, (0 : Nat) % (initPool 1).nthreads⟩]
                     else (initPool 1).unordered
        o_prev := if WT_UNORD < 2 then 2 else (initPool 1).o_prev
        active_ws := if (2 : Nat) ≠ WT_BAR then (initPool 1).active_ws + 1
                     else (initPool 1).active_ws } ∧
    PEv.submit ⟨0, 2, 0, 0⟩ ∈
      ((initPool 1).hist ++ [PEv.submit (⟨0, 2, 0, 0⟩ : PoolWork)]) ∧
    PEv.submit ⟨0, 2, 0, 0⟩ ∉ (initPool 1).hist ∧
    WT_UNORD < (⟨0, 2, 0, 0⟩ : PoolWork).wtype ∧
    (((initPool 1).o_prev ≠ WT_BAR → (⟨0, 2, 0, 0⟩ : PoolWork).wtype ≠ WT_BAR →
        (initPool 1).o_prev = (⟨0, 2, 0, 0⟩ : PoolWork).wtype) ∧
      (if WT_UNORD < 2 then 2 else (initPool 1).o_prev) =
        (⟨0, 2, 0, 0⟩ : PoolWork).wtype) := by
  have hstep : PStep (initPool 1) _ := PStep.submit 0 2 0 (by decide) (by decide)
  exact ⟨hstep, by decide, by decide, by decide,
    submit_precondition_checked (initPool 1) _ ⟨0, 2, 0, 0⟩ hstep (by decide)
      (by decide) (by decide)⟩

/-- Claim C5: `pool_threads_init` uses the default 4 when the environment
variable is unset; a parsed value of 0 becomes 1; a positive value up to 1024
is used as is; any parsed value greater than 1024 (and representable before
the `uint32_t` cast wraps) is clamped to 1024 — e.g. 10000 yields 1024. -/
theorem pool_threads_init_clamp :
    pool_threads_init_nthreads none = 4 ∧
    pool_threads_init_nthreads (some 0) = 1 ∧
    pool_threads_init_nthreads (some 10000) = 1024 ∧
    (∀ v : Int, 0 < v → v ≤ 1024 → pool_threads_init_nthreads (some v) = v.toNat) ∧
    (∀ v : Int, 1024 < v → v < 2 ^ 32 → pool_threads_init_nthreads (some v) = 1024) := by
  refine ⟨by decide, by decide, by decide, ?_, ?_⟩
  · intro v h1 h2
    simp only [pool_threads_init_nthreads]
    have hm : v % (2 ^ 32 : Int) = v := by omega
    rw [hm]
    have h0 : ¬ (v.toNat = 0) := by omega
    rw [if_neg h0]
    have hle : ¬ (v.toNat > MAX_THREADPOOL_SIZE) := by
      simp only [MAX_THREADPOOL_SIZE]
      omega
    rw [if_neg hle]
  · intro v h1 h2
    simp only [pool_threads_init_nthreads]
    have hm : v % (2 ^ 32 : Int) = v := by omega
    rw [hm]
    have h0 : ¬ (v.toNat = 0) := by omega
    rw [if_neg h0]
    have hgt : v.toNat > MAX_THREADPOOL_SIZE := by
      simp only [MAX_THREADPOOL_SIZE]
      omega
    rw [if_pos hgt]
    rfl

/-- Witness for claim C5 at the concrete parsed values 7 (in range) and
2000 (clamped). -/
theorem pool_threads_init_clamp_witness :
    ((0 : Int) < 7 ∧ (7 : Int) ≤ 1024 ∧ pool_threads_init_nthreads (some 7) = (7 : Int).toNat) ∧
    ((1024 : Int) < 2000 ∧ (2000 : Int) < 2 ^ 32 ∧
      pool_threads_init_nthreads (some 2000) = 1024) :=
  ⟨⟨by decide, by decide, pool_threads_init_clamp.2.2.2.1 7 (by decide) (by decide)⟩,
    ⟨by decide, by decide, pool_threads_init_clamp.2.2.2.2 2000 (by decide) (by decide)⟩⟩

/-- Claim C10: when the environment variable parses to a negative int (any
value in `atoi`'s range), the `uint32_t` cast wraps it modulo `2^32` to a
value at least `2^32 - 2^31 > 1024`, so the `== 0` check does not fire and the
thread count is clamped to the maximum 1024, not to the minimum 1; e.g. "-1"
yields 1024. -/
theorem pool_threads_init_negative_env :
    (∀ v : Int, -(2 ^ 31) ≤ v → v < 0 → pool_threads_init_nthreads (some v) = 1024) ∧
    pool_threads_init_nthreads (some (-1)) = 1024 := by
  constructor
  · intro v h1 h2
    simp only [pool_threads_init_nthreads]
    have hm : v % (2 ^ 32 : Int) = v + 2 ^ 32 := by omega
    rw [hm]
    have h0 : ¬ ((v + 2 ^ 32).toNat = 0) := by omega
    rw [if_neg h0]
    have hgt : (v + 2 ^ 32).toNat > MAX_THREADPOOL_SIZE := by
      simp only [MAX_THREADPOOL_SIZE]
      omega
    rw [if_pos hgt]
    rfl
  · decide

/-- Witness for claim C10 at the concrete parsed value -1. -/
theorem pool_threads_init_negative_env_witness :
    (-(2 ^ 31) : Int) ≤ -1 ∧ (-1 : Int) < 0 ∧
      pool_threads_init_nthreads (some (-1)) = 1024 :=
  ⟨by decide, by decide, pool_threads_init_negative_env.1 (-1) (by decide) (by decide)⟩

/-- Claim C8: the shared atomic counter behind `id_generate` serialises its
callers, and within a process lifetime (fewer than `2^64 - 1` calls, before
the 64-bit counter could wrap) successive calls return strictly increasing —
hence pairwise distinct, never reused — uint64 values. -/
theorem id_generate_strictly_increasing (j k : Nat) (hjk : j < k)
    (hk : k < 2 ^ 64 - 1) :
    id_value j < id_value k ∧ id_value j ≠ id_value k := by
  have hstate : ∀ m : Nat, m < 2 ^ 64 → id_state m = m := by
    intro m
    induction m with
    | zero => intro _; rfl
    | succ p ih =>
      intro hp
      have hip : p < 2 ^ 64 := by omega
      simp only [id_state, id_generate, ih hip]
      exact Nat.mod_eq_of_lt hp
  have hj : id_value j = j + 1 := by
    simp only [id_value, id_generate, hstate j (by omega)]
    exact Nat.mod_eq_of_lt (by omega)
  have hk' : id_value k = k + 1 := by
    simp only [id_value, id_generate, hstate k (by omega)]
    exact Nat.mod_eq_of_lt (by omega)
  rw [hj, hk']
  omega

/-- Witness for claim C8: the first two calls return 1 and 2. -/
theorem id_generate_strictly_increasing_witness :
    0 < 1 ∧ 1 < 2 ^ 64 - 1 ∧ (id_value 0 < id_value 1 ∧ id_value 0 ≠ id_value 1) :=
  ⟨by decide, by norm_num, id_generate_strictly_increasing 0 1 (by decide) (by norm_num)⟩

/-- Claim C6 (spec-modelled, `gateway.c` is not among the provided sources):
an OPEN of "test.db" on the registered "volatile" VFS with flags CREATE only
(no READWRITE) is handled without a handler error (first component 0) and
produces a DB_ERROR response with code 21 (SQLITE_MISUSE), extended code 21
and description "bad parameter or other API misuse"; for comparison, the same
OPEN with READWRITE|CREATE yields a DB response with id 0. -/
theorem gateway_open_misuse :
    gateway_handle_open SQLITE_OPEN_CREATE =
      (0, GatewayResponse.dbError ⟨21, 21, "bad parameter or other API misuse"⟩) ∧
    (gateway_handle_open SQLITE_OPEN_CREATE).2 =
      GatewayResponse.dbError
        ⟨SQLITE_MISUSE, SQLITE_MISUSE, "bad parameter or other API misuse"⟩ ∧
    gateway_handle_open (SQLITE_OPEN_READWRITE ||| SQLITE_OPEN_CREATE) =
      (0, GatewayResponse.db 0) := by
  exact ⟨rfl, rfl, rfl⟩

/-- Claim C7 (spec-modelled, `gateway.c` is not among the provided sources):
the ROWS body for a query returning a single row with one INTEGER column of
value -12 is 16 bytes — an 8-byte header word whose low byte is 1
(SQLITE_INTEGER) followed by the little-endian two's-complement int64 -12. -/
theorem gateway_query_rows_encoding :
    (gateway_rows_body [[-12]]).length = 16 ∧
    (gateway_rows_body [[-12]]).take 8 = uint64_le_bytes (row_header [SQLITE_INTEGER]) ∧
    uint64_of_le_bytes ((gateway_rows_body [[-12]]).take 8) % 256 = SQLITE_INTEGER ∧
    int64_of_le_bytes ((gateway_rows_body [[-12]]).drop 8) = -12 := by
  refine ⟨?_, ?_, ?_, ?_⟩ <;> decide
